import Mathlib

/-! Tree scanner (`scanner/main.go`)

A shallow embedding of the scanner: the walk callback of `main`, the denylist
`ignoredDirs`, `loadGitignore`, and the parts of the Go standard library the
callback is driven by (`filepath.Walk`, `filepath.Rel`, `filepath.Ext`,
`filepath.Join`, the base name that `os.Lstat` reports).

The file system is a value of type `Node`.  The closure variable
`project.Files` that the callback appends to is threaded explicitly through
the walk as a `List FileInfo`.
-/

namespace Scanner

/-! ## Data model -/

/-- FileInfo represents a single file in the codebase (`Size` is Go's int64). -/
structure FileInfo where
  Path : String
  Size : Int
  Ext : String
deriving DecidableEq, Repr

/-- Project represents the root of the codebase. -/
structure Project where
  Root : String
  Files : List FileInfo
deriving DecidableEq, Repr

/-- The keys of the map `ignoredDirs` (every key is mapped to `true`, so
`ignoredDirs[name]` is membership in this list). -/
def ignoredDirs : List String :=
  [".git", "node_modules", "Pods", "build", "DerivedData", ".idea", ".vscode",
   "__pycache__", ".DS_Store", "venv", ".env", ".pytest_cache", "dist", ".next",
   ".nuxt", "target"]

/-- A compiled ignore file: the only method the scanner calls is
`MatchesPath`, a pure function of the relative path. -/
structure GitIgnore where
  MatchesPath : String → Bool

/-- What the file system holds at one path.
* `file size`: `os.Lstat` succeeds and reports a non-directory of that size;
* `dir entries`: `os.Lstat` reports a directory whose listing succeeds with
  these names (in the order the directory stores them), each with what is
  found under that name;
* `unreadable`: `os.Lstat` reports a directory, listing it fails;
* `missing`: `os.Lstat` fails. -/
inductive Node where
  | file (size : Int)
  | dir (entries : List (String × Node))
  | unreadable
  | missing

/-- The part of `os.FileInfo` the callback reads. -/
structure Info where
  Name : String
  IsDir : Bool
  Size : Int
deriving DecidableEq, Repr

/-- The errors a walk can meet.  `nilInfo` stands for the nil dereference of
`info.IsDir()` when the callback is handed no `FileInfo` and no error, which
`filepath.Walk` never does. -/
inductive WalkError where
  | lstat (path : String)
  | readdir (path : String)
  | nilInfo
deriving DecidableEq, Repr

/-- A Go `error` as `filepath.Walk` distinguishes it: `nil`, the sentinel
`filepath.SkipDir`, or a real error. -/
inductive Ret where
  | nil
  | SkipDir
  | err (e : WalkError)
deriving DecidableEq, Repr

/-! ## Path functions of the standard library -/

/-- Byte-wise string order, the order of `sort.Strings`. -/
def nameLt (a b : String) : Bool := decide (a.data < b.data)

/-- The path `filepath.Join(path, name)` of a directory entry.  `Join` also
cleans the result; for an entry name that only rewrites the directory part,
which neither `Rel` nor `Ext` below depends on, so the uncleaned form is
kept. -/
def Join (path name : String) : String := path ++ "/" ++ name

/-- The relative path `filepath.Rel(root, path)` for a path that the walk
built from `root`: `.` for the root itself, otherwise what follows the root
and one separator.  (On these paths `Rel` returns no error.) -/
def Rel (root path : String) : String :=
  if path = root then "." else ⟨path.data.drop (root.data.length + 1)⟩

/-- The loop of `filepath.Ext`, run over the reversed path: walk back from
the last character until a separator; at the first `.` return the suffix
starting there. -/
def extLoop : List Char → List Char → List Char
  | [], _ => []
  | c :: rest, acc =>
    if c = '/' then []
    else if c = '.' then c :: acc
    else extLoop rest (c :: acc)

/-- The extension `filepath.Ext(path)`. -/
def Ext (path : String) : String := ⟨extLoop path.data.reverse []⟩

/-- First loop of `basename` in package `os`, on the reversed name: drop
trailing slashes while more than one character is left. -/
def stripSlashes : List Char → List Char
  | c :: d :: rest => if c = '/' then stripSlashes (d :: rest) else c :: d :: rest
  | r => r

/-- The name `os.Lstat(name)` reports (`basename` of package `os`): trailing
slashes removed, then what follows the last remaining slash. -/
def basename (name : String) : String :=
  match stripSlashes name.data.reverse with
  | [] => ""
  | c :: rest => ⟨(c :: rest.takeWhile (fun x => x != '/')).reverse⟩

/-! ## `filepath.Walk` -/

/-- The walk callback with the state it closes over made explicit: it takes
the files collected so far and returns them with its result. -/
abbrev WalkFunc := List FileInfo → String → Option Info → Option WalkError → Ret × List FileInfo

/-- Insertion of one entry into a listing ordered by name. -/
def insertEntry (e : String × Node) : List (String × Node) → List (String × Node)
  | [] => [e]
  | x :: xs => if nameLt x.1 e.1 then x :: insertEntry e xs else e :: x :: xs

mutual
/-- The file system as `readDirNames` shows it: every directory listed in
ascending order of name. -/
def readDir : Node → Node
  | .dir es => .dir (readDirNames es)
  | .file sz => .file sz
  | .unreadable => .unreadable
  | .missing => .missing
/-- The entries of one directory sorted by name, as `readDirNames` returns
them, each subtree listed the same way. -/
def readDirNames : List (String × Node) → List (String × Node)
  | [] => []
  | (n, c) :: rest => insertEntry (n, readDir c) (readDirNames rest)
end

/-- Whether `os.Lstat` reports a directory. -/
def Node.isDir : Node → Bool
  | .dir _ => true
  | .unreadable => true
  | _ => false

mutual
/-- The function `walk` of `path/filepath`: a non-directory is handed to the
callback; a directory is listed first, then handed to the callback together
with the listing error, and descended into only when the listing error and the
callback's result are both nil.  (The size reported for a directory is not
read by the callback; it is set to 0.) -/
def walk (fn : WalkFunc) (path name : String) : Node → List FileInfo → Ret × List FileInfo
  | .file sz, st => fn st path (some ⟨name, false, sz⟩) none
  | .missing, st => fn st path none (some (.lstat path))
  | .unreadable, st => fn st path (some ⟨name, true, 0⟩) (some (.readdir path))
  | .dir es, st =>
    match fn st path (some ⟨name, true, 0⟩) none with
    | (.nil, st1) => walkNames fn path es st1
    | r => r
/-- The loop of `walk` over the names of a directory. -/
def walkNames (fn : WalkFunc) (path : String) :
    List (String × Node) → List FileInfo → Ret × List FileInfo
  | [], st => (.nil, st)
  | (name, .missing) :: rest, st =>
    match fn st (Join path name) none (some (.lstat (Join path name))) with
    | (.err e, st1) => (.err e, st1)
    | (_, st1) => walkNames fn path rest st1
  | (name, c) :: rest, st =>
    match walk fn (Join path name) name c st with
    | (.nil, st1) => walkNames fn path rest st1
    | (.SkipDir, st1) => if c.isDir then walkNames fn path rest st1 else (.SkipDir, st1)
    | (.err e, st1) => (.err e, st1)
end

/-- The function `filepath.Walk`: stat the root, walk it, and turn a final
`SkipDir` into success.  The walk runs over `readDir t`, the file system with
every listing in the order `readDirNames` returns it; a root that cannot be
statted is handed to the callback with the error (the `missing` case of
`walk`). -/
def Walk (root : String) (fn : WalkFunc) (t : Node) (st : List FileInfo) :
    Option WalkError × List FileInfo :=
  match walk fn root (basename root) (readDir t) st with
  | (.nil, st1) => (none, st1)
  | (.SkipDir, st1) => (none, st1)
  | (.err e, st1) => (some e, st1)

/-! ## `main.go` -/

/-- The test `gitignore != nil && gitignore.MatchesPath(relPath)`. -/
def matchesPath (gitignore : Option GitIgnore) (relPath : String) : Bool :=
  match gitignore with
  | some g => g.MatchesPath relPath
  | none => false

/-- The callback that `main` passes to `filepath.Walk`. -/
def walkFn (root : String) (gitignore : Option GitIgnore) : WalkFunc :=
  fun files path info err =>
    match err, info with
    | some e, _ => (.err e, files)
    | none, none => (.err .nilInfo, files)
    | none, some info =>
      let relPath := Rel root path
      -- Skip if matched by common ignore patterns
      if info.IsDir && decide (info.Name ∈ ignoredDirs) then (.SkipDir, files)
      else if !info.IsDir && decide (info.Name ∈ ignoredDirs) then (.nil, files)
      -- Skip if matched by .gitignore
      else if matchesPath gitignore relPath then
        (if info.IsDir then (.SkipDir, files) else (.nil, files))
      -- Skip directories (we only want files in the output)
      else if info.IsDir then (.nil, files)
      else (.nil, files ++ [⟨relPath, info.Size, Ext path⟩])

/-- What `os.Stat` finds under `name` directly below the root. -/
def statChild (name : String) : Node → Option Node
  | .dir es =>
    match es.find? (fun e => e.1 = name) with
    | some (_, .missing) => none
    | some (_, c) => some c
    | none => none
  | _ => none

/-- The function `loadGitignore`; `CompileIgnoreFile` is the library function,
applied to what is stored at the ignore file's path. -/
def loadGitignore (CompileIgnoreFile : Node → Option GitIgnore) (t : Node) : Option GitIgnore :=
  match statChild ".gitignore" t with
  | some f => CompileIgnoreFile f
  | none => none

/-- The body of `main` from the construction of `project` on, for a loaded
(or absent) matcher: the report on success, the error of the walk otherwise. -/
def scan (absRoot root : String) (gitignore : Option GitIgnore) (t : Node) :
    Except WalkError Project :=
  match Walk root (walkFn root gitignore) t [] with
  | (some e, _) => .error e
  | (none, files) => .ok ⟨absRoot, files⟩

/-- The function `main` after argument parsing and `filepath.Abs`. -/
def main (CompileIgnoreFile : Node → Option GitIgnore) (absRoot root : String) (t : Node) :
    Except WalkError Project :=
  scan absRoot root (loadGitignore CompileIgnoreFile t) t

/-- The example tree of the specification. -/
def exampleTree : Node :=
  .dir [("sub", .dir [("b.txt", .file 3)]), ("build", .dir [("x.o", .file 5)]),
        ("a.txt", .file 10)]

/-! ## Specification vocabulary -/

/-- The characters `/n₁/n₂/…` that joining the names below a path appends. -/
def sepJoin : List String → List Char
  | [] => []
  | n :: rest => '/' :: (n.data ++ sepJoin rest)

/-- The root-relative path of the entry reached from the root through the
names `rel`: `.` for the root, the names separated by `/` otherwise. -/
def relStr : List String → String
  | [] => "."
  | n :: rest => ⟨n.data ++ sepJoin rest⟩

/-- The path the walk hands to the callback for the entry reached through the
names `rel`. -/
def pathOf (root : String) (rel : List String) : String := rel.foldl Join root

/-- An entry is excluded when its name is in the denylist or the matcher, if
loaded, matches its relative path. -/
def excluded (g : Option GitIgnore) (name : String) (rel : List String) : Bool :=
  decide (name ∈ ignoredDirs) || matchesPath g (relStr rel)

/-- The report entry of the file reached through `rel`. -/
def entryOf (root : String) (e : List String × Int) : FileInfo :=
  ⟨relStr e.1, e.2, Ext (pathOf root e.1)⟩

mutual
/-- The files a walk keeps, in order, each with the names leading to it and
its size: an excluded entry contributes nothing, a kept directory the kept
files of its entries. -/
def kept (g : Option GitIgnore) (name : String) (rel : List String) : Node → List (List String × Int)
  | .file sz => if excluded g name rel then [] else [(rel, sz)]
  | .dir es => if excluded g name rel then [] else keptList g rel es
  | .unreadable => []
  | .missing => []
/-- The kept files of the entries of a directory. -/
def keptList (g : Option GitIgnore) (rel : List String) : List (String × Node) → List (List String × Int)
  | [] => []
  | (n, c) :: rest => kept g n (rel ++ [n]) c ++ keptList g rel rest
end

mutual
/-- The first failure a walk meets: an entry that cannot be statted, a
directory that cannot be listed, or the first failure below a directory that
is not pruned. -/
def failure (root : String) (g : Option GitIgnore) (name : String) (rel : List String) :
    Node → Option WalkError
  | .file _ => none
  | .dir es => if excluded g name rel then none else failureList root g rel es
  | .unreadable => some (.readdir (pathOf root rel))
  | .missing => some (.lstat (pathOf root rel))
/-- The first failure among the entries of a directory. -/
def failureList (root : String) (g : Option GitIgnore) (rel : List String) :
    List (String × Node) → Option WalkError
  | [] => none
  | (n, c) :: rest =>
    match failure root g n (rel ++ [n]) c with
    | some e => some e
    | none => failureList root g rel rest
end

/-- The result a walk returns for a node: the first failure if there is one,
`SkipDir` for a pruned directory, nil otherwise. -/
def walkRet (root : String) (g : Option GitIgnore) (name : String) (rel : List String)
    (t : Node) : Ret :=
  match failure root g name rel t with
  | some e => .err e
  | none => if t.isDir && excluded g name rel then .SkipDir else .nil

/-- The entry `x` is found in the tree `t` by following the names `cs`
downwards through listable directories. -/
inductive Node.At : Node → List String → Node → Prop where
  | here (t : Node) : Node.At t [] t
  | step {es : List (String × Node)} {n : String} {c : Node} {cs : List String} {x : Node} :
      (n, c) ∈ es → Node.At c cs x → Node.At (.dir es) (n :: cs) x

/-- No entry on the way to (and including) the entry reached through `cs`
is excluded, starting from an entry called `name` found at `rel`. -/
def chainOk (g : Option GitIgnore) (name : String) (rel : List String) : List String → Bool
  | [] => !excluded g name rel
  | c :: cs => !excluded g name rel && chainOk g c (rel ++ [c]) cs

/-- No directory strictly above the entry reached through `cs` is excluded. -/
def reachOk (g : Option GitIgnore) (name : String) (rel : List String) : List String → Bool
  | [] => true
  | c :: cs => !excluded g name rel && reachOk g c (rel ++ [c]) cs

/-- Whether visiting the node fails: it cannot be statted, or it is a
directory that cannot be listed. -/
def Node.fails : Node → Bool
  | .unreadable => true
  | .missing => true
  | _ => false

/-- The name `os.Lstat` reports for the entry reached through `rel`: the
last name on the way, or the base name of the root for the root itself. -/
def entryName (root : String) (rel : List String) : String :=
  (rel.getLast?).getD (basename root)

/-- The callback with the two exclusion checks in the other order, the
ignore matcher first and the denylist second, as the specification
contemplates it. -/
def walkFnSwapped (root : String) (gitignore : Option GitIgnore) : WalkFunc :=
  fun files path info err =>
    match err, info with
    | some e, _ => (.err e, files)
    | none, none => (.err .nilInfo, files)
    | none, some info =>
      let relPath := Rel root path
      if matchesPath gitignore relPath then
        (if info.IsDir then (.SkipDir, files) else (.nil, files))
      else if info.IsDir && decide (info.Name ∈ ignoredDirs) then (.SkipDir, files)
      else if !info.IsDir && decide (info.Name ∈ ignoredDirs) then (.nil, files)
      else if info.IsDir then (.nil, files)
      else (.nil, files ++ [⟨relPath, info.Size, Ext path⟩])

/-- The scan run with the checks in the other order. -/
def scanSwapped (absRoot root : String) (gitignore : Option GitIgnore) (t : Node) :
    Except WalkError Project :=
  match Walk root (walkFnSwapped root gitignore) t [] with
  | (some e, _) => .error e
  | (none, files) => .ok ⟨absRoot, files⟩

/-- A legal entry name: not empty and free of path separators. -/
def legalName (n : String) : Bool := n.data != [] && !n.data.contains '/'

mutual
/-- Every entry name in the tree is legal. -/
def legalNames : Node → Bool
  | .dir es => legalNamesList es
  | _ => true
/-- Every entry name in the listing, and below it, is legal. -/
def legalNamesList : List (String × Node) → Bool
  | [] => true
  | (n, c) :: rest => legalName n && legalNames c && legalNamesList rest
end

mutual
/-- No directory of the tree lists a name twice. -/
def distinctNames : Node → Bool
  | .dir es => distinctNamesList es
  | _ => true
/-- The listing holds no name twice, nor does any directory below it. -/
def distinctNamesList : List (String × Node) → Bool
  | [] => true
  | (n, c) :: rest =>
    !(rest.map Prod.fst).contains n && distinctNames c && distinctNamesList rest
end

mutual
/-- Every entry of the tree can be statted and every directory listed. -/
def readable : Node → Bool
  | .file _ => true
  | .dir es => readableList es
  | .unreadable => false
  | .missing => false
/-- Every entry of the listing is readable. -/
def readableList : List (String × Node) → Bool
  | [] => true
  | (_, c) :: rest => readable c && readableList rest
end

mutual
/-- Every directory of the tree is listed in strictly ascending order of
name. -/
def ascending : Node → Bool
  | .dir es => ascendingList es
  | _ => true
/-- The listing is in strictly ascending order of name, and so is every
directory below it. -/
def ascendingList : List (String × Node) → Bool
  | [] => true
  | (n, c) :: rest =>
    rest.all (fun e => nameLt n e.1) && ascending c && ascendingList rest
end

/-- The characters of a path split at every separator. -/
def splitChars : List Char → List (List Char)
  | [] => [[]]
  | c :: rest =>
    if c = '/' then [] :: splitChars rest
    else match splitChars rest with
      | [] => [[c]]
      | h :: t => (c :: h) :: t

/-- The components of a path: the pieces between its separators. -/
def components (p : String) : List String := (splitChars p.data).map String.mk

/-- The first path comes before the second at the first component where they
differ: they share the components `pre`, and then the first continues with a
name that is smaller than the name the second continues with. -/
def FirstDiffLt (a b : List String) : Prop :=
  ∃ pre x y s1 s2, a = pre ++ x :: s1 ∧ b = pre ++ y :: s2 ∧ nameLt x y = true

/-- A tree with denylisted directories at two depths and a denylisted file. -/
def sampleTree : Node :=
  .dir [("src", .dir [("node_modules", .dir [("m.js", .file 1)]), ("main.go", .file 9),
                      (".DS_Store", .file 6)]),
        ("target", .dir [("out", .dir [("app", .file 2)])]),
        ("README", .file 4)]

/-- A matcher for the single pattern `*.log`: it matches the paths that end
in `.log`. -/
def logMatcher : GitIgnore :=
  ⟨fun p => p.data.reverse.take 4 == ['g', 'o', 'l', '.']⟩

/-- A tree with a log file at the top, a directory whose name ends in `.log`,
and a log file one level down. -/
def logTree : Node :=
  .dir [("a.log", .file 1), ("old.log", .dir [("keep.txt", .file 2)]),
        ("src", .dir [("b.log", .file 3), ("c.go", .file 4)])]

/-- The extension of a name as the specification words it: `ext` is the
suffix of `name` that starts at the last `.` of `name` (it begins with `.` and
holds no other `.`), and it is empty when `name` holds no `.`. -/
def IsExtOf (ext name : List Char) : Prop :=
  ext <:+ name ∧ (('.' ∉ name ∧ ext = []) ∨ ∃ s, ext = '.' :: s ∧ '.' ∉ s)

/-- A tree with a doubly dotted name, a name without a dot, and a file
without a dot inside a directory whose name has one. -/
def extTree : Node :=
  .dir [("archive.tar.gz", .file 1), ("README", .file 2),
        ("v1.2", .dir [("notes", .file 3)])]

/-- The entry reached through the names `cs` is visible: neither its own
name nor the name of any directory between the root and it is in the denylist,
and the matcher, if loaded, matches neither its relative path nor the relative
path of any such directory. -/
def Visible (g : Option GitIgnore) (cs : List String) : Prop :=
  ∀ q n, q ++ [n] <+: cs → n ∉ ignoredDirs ∧ matchesPath g (relStr (q ++ [n])) = false

/-- A matcher that matches no path, as an ignore file of comments and blank
lines compiles to. -/
def blankIgnore : GitIgnore := ⟨fun _ => false⟩

/-- A compile function for which every ignore file is blank. -/
def compileBlank : Node → Option GitIgnore := fun _ => some blankIgnore

/-- The entry is not called `.gitignore`. -/
def notGitignore (e : String × Node) : Bool := e.1 != ".gitignore"

/-! ## Structural induction over the file system -/

/-- Simultaneous induction over a node and over the entries of a directory. -/
theorem Node.induct {P : Node → Prop} {Q : List (String × Node) → Prop}
    (hfile : ∀ sz, P (.file sz)) (hdir : ∀ es, Q es → P (.dir es))
    (hunreadable : P .unreadable) (hmissing : P .missing)
    (hnil : Q []) (hcons : ∀ n c rest, P c → Q rest → Q ((n, c) :: rest)) :
    (∀ t, P t) ∧ (∀ es, Q es) :=
  ⟨fun t => @Node.rec P Q (fun p => P p.2)
      hfile (fun es h => hdir es h) hunreadable hmissing hnil
      (fun hd tl hp hq => hcons hd.1 hd.2 tl hp hq) (fun _ _ h => h) t,
   fun es => @Node.rec_1 P Q (fun p => P p.2)
      hfile (fun es h => hdir es h) hunreadable hmissing hnil
      (fun hd tl hp hq => hcons hd.1 hd.2 tl hp hq) (fun _ _ h => h) es⟩

/-! ## The walk in closed form -/

theorem pathOf_snoc (root : String) (rel : List String) (n : String) :
    pathOf root (rel ++ [n]) = Join (pathOf root rel) n := by
  simp [pathOf, List.foldl_append]

theorem pathOf_data (root : String) (rel : List String) :
    (pathOf root rel).data = root.data ++ sepJoin rel := by
  induction rel using List.reverseRecOn with
  | nil => simp [pathOf, sepJoin]
  | append_singleton rel n ih =>
    have hs : ∀ l : List String, sepJoin (l ++ [n]) = sepJoin l ++ '/' :: n.data := by
      intro l
      induction l with
      | nil => simp [sepJoin]
      | cons a l ihl => simp [sepJoin, ihl]
    rw [pathOf_snoc, hs]
    simp [Join, ih]

theorem Rel_pathOf (root : String) (rel : List String) :
    Rel root (pathOf root rel) = relStr rel := by
  cases rel with
  | nil => simp [Rel, pathOf, relStr]
  | cons n rest =>
    have hd := pathOf_data root (n :: rest)
    have hne : pathOf root (n :: rest) ≠ root := by
      intro h
      rw [h] at hd
      have := congrArg List.length hd
      simp [sepJoin] at this
    have hdrop : ∀ x : List Char, List.drop (root.data.length + 1) (root.data ++ '/' :: x) = x := by
      intro x
      rw [List.drop_append]
      rfl
    simp only [Rel, hne, if_false, relStr, hd, sepJoin, hdrop]

theorem walkFn_err (root : String) (g : Option GitIgnore) (st : List FileInfo) (path : String)
    (info : Option Info) (e : WalkError) :
    walkFn root g st path info (some e) = (.err e, st) := by
  simp [walkFn]

theorem walkFn_dir (root : String) (g : Option GitIgnore) (st : List FileInfo)
    (rel : List String) (name : String) (sz : Int) :
    walkFn root g st (pathOf root rel) (some ⟨name, true, sz⟩) none
      = (if excluded g name rel then .SkipDir else .nil, st) := by
  by_cases h1 : name ∈ ignoredDirs <;> by_cases h2 : matchesPath g (relStr rel) = true <;>
    simp [walkFn, excluded, Rel_pathOf, h1, h2]

theorem walkFn_file (root : String) (g : Option GitIgnore) (st : List FileInfo)
    (rel : List String) (name : String) (sz : Int) :
    walkFn root g st (pathOf root rel) (some ⟨name, false, sz⟩) none
      = (.nil, if excluded g name rel then st else st ++ [entryOf root (rel, sz)]) := by
  by_cases h1 : name ∈ ignoredDirs <;> by_cases h2 : matchesPath g (relStr rel) = true <;>
    simp [walkFn, excluded, Rel_pathOf, h1, h2, entryOf]

theorem walkNames_cons (fn : WalkFunc) (path name : String) (c : Node)
    (rest : List (String × Node)) (st : List FileInfo) (hc : c ≠ .missing) :
    walkNames fn path ((name, c) :: rest) st
      = match walk fn (Join path name) name c st with
        | (.nil, st1) => walkNames fn path rest st1
        | (.SkipDir, st1) => if c.isDir then walkNames fn path rest st1 else (.SkipDir, st1)
        | (.err e, st1) => (.err e, st1) := by
  cases c with
  | missing => exact absurd rfl hc
  | file sz => rw [walkNames]; exact hc
  | dir es => rw [walkNames]; exact hc
  | unreadable => rw [walkNames]; exact hc

theorem walk_closed (root : String) (g : Option GitIgnore) :
    (∀ t rel name st,
      (walk (walkFn root g) (pathOf root rel) name t st).1 = walkRet root g name rel t ∧
      (failure root g name rel t = none →
        (walk (walkFn root g) (pathOf root rel) name t st).2
          = st ++ (kept g name rel t).map (entryOf root))) ∧
    (∀ es rel st,
      (walkNames (walkFn root g) (pathOf root rel) es st).1
          = (match failureList root g rel es with
             | some e => .err e
             | none => .nil) ∧
      (failureList root g rel es = none →
        (walkNames (walkFn root g) (pathOf root rel) es st).2
          = st ++ (keptList g rel es).map (entryOf root))) := by
  apply Node.induct
  · intro sz rel name st
    by_cases h : excluded g name rel = true <;>
      simp [walk, walkFn_file, walkRet, failure, kept, Node.isDir, h]
  · intro es ih rel name st
    by_cases h : excluded g name rel = true
    · simp [walk, walkFn_dir, walkRet, failure, kept, Node.isDir, h]
    · have h1 := (ih rel st).1
      have h2 := (ih rel st).2
      simp only [walk, walkFn_dir, walkRet, failure, kept, Node.isDir, h]
      refine ⟨?_, ?_⟩
      · simp only [Bool.false_eq_true, if_false] at *
        rw [h1]
        cases failureList root g rel es <;> simp
      · intro hf
        simpa using h2 (by simpa using hf)
  · intro rel name st
    simp [walk, walkFn_err, walkRet, failure]
  · intro rel name st
    simp [walk, walkFn_err, walkRet, failure]
  · intro rel st
    simp [walkNames, failureList, keptList]
  · intro n c rest ihc ihr rel st
    have hc1 := (ihc (rel ++ [n]) n st).1
    have hc2 := (ihc (rel ++ [n]) n st).2
    rw [pathOf_snoc] at hc1 hc2
    by_cases hm : c = .missing
    · subst hm
      simp [walkNames, walkFn_err, failureList, failure, pathOf_snoc]
    · rw [walkNames_cons _ _ _ _ _ _ hm]
      rcases hw : walk (walkFn root g) (Join (pathOf root rel) n) n c st with ⟨r, st1⟩
      rw [hw] at hc1 hc2
      simp only at hc1 hc2
      simp only [failureList, keptList]
      cases hf : failure root g n (rel ++ [n]) c with
      | some e =>
        simp [walkRet, hf] at hc1
        subst hc1
        simp
      | none =>
        have hst := hc2 hf
        subst hst
        have hr1 := (ihr rel (st ++ (kept g n (rel ++ [n]) c).map (entryOf root))).1
        have hr2 := (ihr rel (st ++ (kept g n (rel ++ [n]) c).map (entryOf root))).2
        simp only [walkRet, hf] at hc1
        by_cases hx : (c.isDir && excluded g n (rel ++ [n])) = true
        · rw [if_pos hx] at hc1
          subst hc1
          have hd : c.isDir = true := by
            cases hcd : c.isDir <;> simp [hcd] at hx ⊢
          simp only [hd, if_true]
          refine ⟨hr1, fun h => ?_⟩
          rw [hr2 h]
          simp
        · rw [if_neg hx] at hc1
          subst hc1
          refine ⟨hr1, fun h => ?_⟩
          simp only
          rw [hr2 h]
          simp

theorem scan_closed (absRoot root : String) (g : Option GitIgnore) (t : Node) :
    scan absRoot root g t =
      match failure root g (basename root) [] (readDir t) with
      | some e => .error e
      | none => .ok ⟨absRoot, (kept g (basename root) [] (readDir t)).map (entryOf root)⟩ := by
  have h := (walk_closed root g).1 (readDir t) [] (basename root) []
  simp only [pathOf, List.foldl_nil] at h
  rcases hw : walk (walkFn root g) root (basename root) (readDir t) [] with ⟨r, st1⟩
  rw [hw] at h
  obtain ⟨h1, h2⟩ := h
  simp only at h1 h2
  simp only [scan, Walk, hw]
  cases hf : failure root g (basename root) [] (readDir t) with
  | some e =>
    simp only [walkRet, hf] at h1
    subst h1
    rfl
  | none =>
    have := h2 hf
    subst this
    simp only [walkRet, hf] at h1
    split at h1 <;> subst h1 <;> simp

/-! ## What is kept and what fails, in terms of the tree -/

theorem mem_kept (g : Option GitIgnore) :
    (∀ t name rel r sz, (r, sz) ∈ kept g name rel t ↔
      ∃ cs, r = rel ++ cs ∧ Node.At t cs (.file sz) ∧ chainOk g name rel cs = true) ∧
    (∀ es rel r sz, (r, sz) ∈ keptList g rel es ↔
      ∃ n c cs, (n, c) ∈ es ∧ r = rel ++ n :: cs ∧ Node.At c cs (.file sz) ∧
        chainOk g n (rel ++ [n]) cs = true) := by
  apply Node.induct
  · intro s name rel r sz
    constructor
    · intro h
      by_cases hx : excluded g name rel = true
      · simp [kept, hx] at h
      · simp only [kept, hx, Bool.false_eq_true, if_false, List.mem_singleton, Prod.mk.injEq] at h
        obtain ⟨rfl, rfl⟩ := h
        exact ⟨[], by simp, .here _, by simpa [chainOk] using hx⟩
    · rintro ⟨cs, rfl, hat, hok⟩
      cases hat
      simp only [chainOk, Bool.not_eq_true'] at hok
      simp [kept, hok]
  · intro es ih name rel r sz
    constructor
    · intro h
      by_cases hx : excluded g name rel = true
      · simp [kept, hx] at h
      · simp only [kept, hx, Bool.false_eq_true, if_false] at h
        obtain ⟨n, c, cs, hmem, rfl, hat, hok⟩ := (ih rel r sz).1 h
        refine ⟨n :: cs, rfl, .step hmem hat, ?_⟩
        simp only [chainOk, hok, Bool.and_true, Bool.not_eq_true']
        simpa using hx
    · rintro ⟨cs, rfl, hat, hok⟩
      cases hat with
      | step hmem hat =>
        simp only [chainOk, Bool.and_eq_true, Bool.not_eq_true'] at hok
        simp only [kept, hok.1, Bool.false_eq_true, if_false]
        exact (ih rel _ sz).2 ⟨_, _, _, hmem, rfl, hat, hok.2⟩
  · intro name rel r sz
    constructor
    · intro h
      simp [kept] at h
    · rintro ⟨cs, -, hat, -⟩
      cases hat
  · intro name rel r sz
    constructor
    · intro h
      simp [kept] at h
    · rintro ⟨cs, -, hat, -⟩
      cases hat
  · intro rel r sz
    simp [keptList]
  · intro n c rest ihc ihr rel r sz
    simp only [keptList, List.mem_append, ihc, ihr, List.mem_cons, Prod.mk.injEq]
    constructor
    · rintro (⟨cs, rfl, hat, hok⟩ | ⟨n2, c2, cs, hmem, rfl, hat, hok⟩)
      · exact ⟨n, c, cs, Or.inl ⟨rfl, rfl⟩, by simp, hat, hok⟩
      · exact ⟨n2, c2, cs, Or.inr hmem, rfl, hat, hok⟩
    · rintro ⟨n2, c2, cs, (⟨rfl, rfl⟩ | hmem), rfl, hat, hok⟩
      · exact Or.inl ⟨cs, by simp, hat, hok⟩
      · exact Or.inr ⟨n2, c2, cs, hmem, rfl, hat, hok⟩

theorem failure_isSome (root : String) (g : Option GitIgnore) :
    (∀ t name rel, (failure root g name rel t).isSome = true ↔
      ∃ cs x, Node.At t cs x ∧ x.fails = true ∧ reachOk g name rel cs = true) ∧
    (∀ es rel, (failureList root g rel es).isSome = true ↔
      ∃ n c cs x, (n, c) ∈ es ∧ Node.At c cs x ∧ x.fails = true ∧
        reachOk g n (rel ++ [n]) cs = true) := by
  apply Node.induct
  · intro s name rel
    simp only [failure, Option.isSome_none, Bool.false_eq_true, false_iff]
    rintro ⟨cs, x, hat, hx, -⟩
    cases hat
    simp [Node.fails] at hx
  · intro es ih name rel
    constructor
    · intro h
      by_cases hx : excluded g name rel = true
      · simp [failure, hx] at h
      · simp only [failure, hx, Bool.false_eq_true, if_false] at h
        obtain ⟨n, c, cs, x, hmem, hat, hf, hok⟩ := (ih rel).1 h
        refine ⟨n :: cs, x, .step hmem hat, hf, ?_⟩
        simp only [reachOk, hok, Bool.and_true, Bool.not_eq_true']
        simpa using hx
    · rintro ⟨cs, x, hat, hf, hok⟩
      cases hat with
      | here => simp [Node.fails] at hf
      | step hmem hat =>
        simp only [reachOk, Bool.and_eq_true, Bool.not_eq_true'] at hok
        simp only [failure, hok.1, Bool.false_eq_true, if_false]
        exact (ih rel).2 ⟨_, _, _, _, hmem, hat, hf, hok.2⟩
  · intro name rel
    simp only [failure, Option.isSome_some, true_iff]
    exact ⟨[], _, .here _, rfl, rfl⟩
  · intro name rel
    simp only [failure, Option.isSome_some, true_iff]
    exact ⟨[], _, .here _, rfl, rfl⟩
  · intro rel
    simp [failureList]
  · intro n c rest ihc ihr rel
    have hsplit : (failureList root g rel ((n, c) :: rest)).isSome = true ↔
        (failure root g n (rel ++ [n]) c).isSome = true ∨
          (failureList root g rel rest).isSome = true := by
      simp only [failureList]
      cases failure root g n (rel ++ [n]) c <;> simp
    rw [hsplit, ihc, ihr]
    constructor
    · rintro (⟨cs, x, hat, hf, hok⟩ | ⟨n2, c2, cs, x, hmem, hat, hf, hok⟩)
      · exact ⟨n, c, cs, x, List.mem_cons_self _ _, hat, hf, hok⟩
      · exact ⟨n2, c2, cs, x, List.mem_cons_of_mem _ hmem, hat, hf, hok⟩
    · rintro ⟨n2, c2, cs, x, hmem, hat, hf, hok⟩
      rcases List.mem_cons.1 hmem with h | h
      · obtain ⟨rfl, rfl⟩ := Prod.mk.inj h
        exact Or.inl ⟨cs, x, hat, hf, hok⟩
      · exact Or.inr ⟨n2, c2, cs, x, h, hat, hf, hok⟩

/-! ## The sorted listing holds the same entries -/

theorem mem_insertEntry (e x : String × Node) (l : List (String × Node)) :
    x ∈ insertEntry e l ↔ x = e ∨ x ∈ l := by
  induction l with
  | nil => simp [insertEntry]
  | cons y ys ih =>
    simp only [insertEntry]
    split
    · simp only [List.mem_cons, ih]
      tauto
    · simp

theorem mem_readDirNames (es : List (String × Node)) (n : String) (c1 : Node) :
    (n, c1) ∈ readDirNames es ↔ ∃ c, (n, c) ∈ es ∧ readDir c = c1 := by
  induction es with
  | nil => simp [readDirNames]
  | cons e rest ih =>
    obtain ⟨m, d⟩ := e
    simp only [readDirNames, mem_insertEntry, ih, List.mem_cons, Prod.mk.injEq]
    constructor
    · rintro (⟨rfl, rfl⟩ | ⟨c, hc, rfl⟩)
      · exact ⟨d, Or.inl ⟨rfl, rfl⟩, rfl⟩
      · exact ⟨c, Or.inr hc, rfl⟩
    · rintro ⟨c, (⟨rfl, rfl⟩ | hc), rfl⟩
      · exact Or.inl ⟨rfl, rfl⟩
      · exact Or.inr ⟨c, hc, rfl⟩

theorem At_readDir_of_At {t x : Node} {cs : List String} (h : Node.At t cs x) :
    Node.At (readDir t) cs (readDir x) := by
  induction h with
  | here t => exact .here _
  | step hmem _ ih =>
    rw [readDir]
    exact .step ((mem_readDirNames _ _ _).2 ⟨_, hmem, rfl⟩) ih

theorem At_nil {t x : Node} : Node.At t [] x ↔ x = t := by
  constructor
  · intro h
    generalize hcs : ([] : List String) = cs at h
    cases h with
    | here => rfl
    | step _ _ => cases hcs
  · rintro rfl
    exact .here _

theorem At_cons {t x : Node} {n : String} {cs : List String} :
    Node.At t (n :: cs) x ↔ ∃ es c, t = .dir es ∧ (n, c) ∈ es ∧ Node.At c cs x := by
  constructor
  · intro h
    generalize hcs : n :: cs = l at h
    cases h with
    | here => cases hcs
    | step hmem hat =>
      cases hcs
      exact ⟨_, _, rfl, hmem, hat⟩
  · rintro ⟨es, c, rfl, hmem, hat⟩
    exact .step hmem hat

theorem At_of_At_readDir (cs : List String) :
    ∀ (t x1 : Node), Node.At (readDir t) cs x1 → ∃ x, Node.At t cs x ∧ readDir x = x1 := by
  induction cs with
  | nil =>
    intro t x1 h
    rw [At_nil] at h
    exact ⟨t, .here _, h.symm⟩
  | cons n cs ih =>
    intro t x1 h
    obtain ⟨es1, c1, ht, hmem, hat⟩ := At_cons.1 h
    cases t with
    | dir es =>
      rw [readDir] at ht
      cases ht
      obtain ⟨c, hc, rfl⟩ := (mem_readDirNames _ _ _).1 hmem
      obtain ⟨x, hx, rfl⟩ := ih c x1 hat
      exact ⟨x, .step hc hx, rfl⟩
    | file sz => rw [readDir] at ht; cases ht
    | unreadable => rw [readDir] at ht; cases ht
    | missing => rw [readDir] at ht; cases ht

theorem readDir_eq_file {x : Node} {sz : Int} : readDir x = .file sz ↔ x = .file sz := by
  cases x <;> simp [readDir]

theorem fails_readDir (x : Node) : (readDir x).fails = x.fails := by
  cases x <;> simp [readDir, Node.fails]

theorem At_readDir_file {t : Node} {cs : List String} {sz : Int} :
    Node.At (readDir t) cs (.file sz) ↔ Node.At t cs (.file sz) := by
  constructor
  · intro h
    obtain ⟨x, hx, he⟩ := At_of_At_readDir cs t _ h
    rw [readDir_eq_file.1 he] at hx
    exact hx
  · intro h
    have := At_readDir_of_At h
    rwa [readDir] at this

/-! ## Exclusion along a path -/

theorem getLast?_cons_getD (c name : String) (q : List String) :
    ((c :: q).getLast?).getD name = (q.getLast?).getD c := by
  cases q with
  | nil => rfl
  | cons a q => simp [List.getLast?_cons_cons, List.getLast?_cons]

theorem reachOk_iff (g : Option GitIgnore) (cs : List String) :
    ∀ (name : String) (rel : List String), reachOk g name rel cs = true ↔
      ∀ q, q <+: cs → q ≠ cs → excluded g ((q.getLast?).getD name) (rel ++ q) = false := by
  induction cs with
  | nil =>
    intro name rel
    simp only [reachOk, true_iff]
    intro q hq hne
    exact absurd (List.prefix_nil.1 hq) hne
  | cons c cs ih =>
    intro name rel
    simp only [reachOk, Bool.and_eq_true, Bool.not_eq_true', ih]
    constructor
    · rintro ⟨h0, h⟩ q hq hne
      rcases List.prefix_cons_iff.1 hq with rfl | ⟨q1, rfl, hq1⟩
      · simpa using h0
      · have := h q1 hq1 (fun e => hne (by rw [e]))
        rw [getLast?_cons_getD]
        simpa using this
    · intro h
      refine ⟨by simpa using h [] (List.nil_prefix) (by simp), fun q hq hne => ?_⟩
      have := h (c :: q) (List.prefix_cons_iff.2 (Or.inr ⟨q, rfl, hq⟩)) (by simpa using hne)
      rw [getLast?_cons_getD] at this
      simpa using this

theorem chainOk_eq (g : Option GitIgnore) (cs : List String) :
    ∀ (name : String) (rel : List String), chainOk g name rel cs =
      (reachOk g name rel cs && !excluded g ((cs.getLast?).getD name) (rel ++ cs)) := by
  induction cs with
  | nil => intro name rel; simp [chainOk, reachOk]
  | cons c cs ih =>
    intro name rel
    simp only [chainOk, reachOk, ih, getLast?_cons_getD, Bool.and_assoc]
    simp

theorem chainOk_iff (g : Option GitIgnore) (cs : List String) (name : String)
    (rel : List String) : chainOk g name rel cs = true ↔
      ∀ q, q <+: cs → excluded g ((q.getLast?).getD name) (rel ++ q) = false := by
  rw [chainOk_eq, Bool.and_eq_true, reachOk_iff]
  constructor
  · rintro ⟨h1, h2⟩ q hq
    by_cases hne : q = cs
    · subst hne; simpa using h2
    · exact h1 q hq hne
  · intro h
    exact ⟨fun q hq _ => h q hq, by simpa using h cs List.prefix_rfl⟩

/-! ## Listings in ascending order -/

theorem nameLt_trans {a b c : String} (h1 : nameLt a b = true) (h2 : nameLt b c = true) :
    nameLt a c = true := by
  simp only [nameLt, decide_eq_true_eq] at *
  exact lt_trans h1 h2

theorem nameLt_of_not {a b : String} (h : nameLt a b = false) (hne : a ≠ b) :
    nameLt b a = true := by
  simp only [nameLt, decide_eq_true_eq, decide_eq_false_iff_not] at *
  rcases lt_trichotomy a.data b.data with h1 | h1 | h1
  · exact absurd h1 h
  · exact absurd (String.ext h1) hne
  · exact h1

theorem nameLt_irrefl (a : String) : nameLt a a = false := by
  simp [nameLt]

theorem ascendingList_insert (n : String) (c : Node) (hc : ascending c = true) :
    ∀ (l : List (String × Node)), ascendingList l = true → n ∉ l.map Prod.fst →
      ascendingList (insertEntry (n, c) l) = true := by
  intro l
  induction l with
  | nil =>
    intro _ _
    simp [insertEntry, ascendingList, hc]
  | cons y ys ih =>
    obtain ⟨m, d⟩ := y
    intro hl hn
    simp only [ascendingList, Bool.and_eq_true, List.all_eq_true] at hl
    obtain ⟨⟨hall, hd⟩, hys⟩ := hl
    simp only [List.map_cons, List.mem_cons, not_or] at hn
    simp only [insertEntry]
    cases hlt : nameLt m n with
    | true =>
      simp only [if_true, ascendingList, Bool.and_eq_true, List.all_eq_true]
      refine ⟨⟨?_, hd⟩, ih hys hn.2⟩
      intro x hx
      rcases (mem_insertEntry _ _ _).1 hx with rfl | hx
      · exact hlt
      · exact hall x hx
    | false =>
      have hnm : nameLt n m = true := nameLt_of_not hlt (fun e => hn.1 e.symm)
      simp only [Bool.false_eq_true, if_false, ascendingList, Bool.and_eq_true,
        List.all_eq_true]
      refine ⟨⟨?_, hc⟩, ⟨hall, hd⟩, hys⟩
      intro x hx
      rcases List.mem_cons.1 hx with rfl | hx
      · exact hnm
      · exact nameLt_trans hnm (hall x hx)

theorem ascending_readDir :
    (∀ t, distinctNames t = true → ascending (readDir t) = true) ∧
    (∀ es, distinctNamesList es = true → ascendingList (readDirNames es) = true) := by
  apply Node.induct
  · intro sz _; simp [readDir, ascending]
  · intro es ih h
    rw [distinctNames] at h
    simpa [readDir, ascending] using ih h
  · intro _; simp [readDir, ascending]
  · intro _; simp [readDir, ascending]
  · intro _; simp [readDirNames, ascendingList]
  · intro n c rest ihc ihr h
    simp only [distinctNamesList, Bool.and_eq_true, Bool.not_eq_true'] at h
    obtain ⟨⟨hn, hc⟩, hrest⟩ := h
    rw [readDirNames]
    refine ascendingList_insert n _ (ihc hc) _ (ihr hrest) ?_
    intro hmem
    obtain ⟨⟨n1, c1⟩, hx, rfl⟩ := List.mem_map.1 hmem
    obtain ⟨c2, hc2, -⟩ := (mem_readDirNames rest n1 c1).1 hx
    have : (rest.map Prod.fst).contains n1 = true := by
      have hm2 : n1 ∈ rest.map Prod.fst := List.mem_map.2 ⟨(n1, c2), hc2, rfl⟩
      simpa using hm2
    rw [this] at hn
    cases hn

theorem pairwise_kept (g : Option GitIgnore) :
    (∀ t name rel, ascending t = true →
      (kept g name rel t).Pairwise (fun a b => FirstDiffLt a.1 b.1)) ∧
    (∀ es rel, ascendingList es = true →
      (keptList g rel es).Pairwise (fun a b => FirstDiffLt a.1 b.1)) := by
  apply Node.induct
  · intro sz name rel _
    rw [kept]
    split <;> simp
  · intro es ih name rel h
    rw [ascending] at h
    rw [kept]
    split
    · simp
    · exact ih rel h
  · intro name rel _; simp [kept]
  · intro name rel _; simp [kept]
  · intro rel _; simp [keptList]
  · intro n c rest ihc ihr rel h
    simp only [ascendingList, Bool.and_eq_true, List.all_eq_true] at h
    obtain ⟨⟨hall, hc⟩, hrest⟩ := h
    rw [keptList, List.pairwise_append]
    refine ⟨ihc n (rel ++ [n]) hc, ihr rel hrest, ?_⟩
    rintro ⟨r1, s1⟩ h1 ⟨r2, s2⟩ h2
    obtain ⟨cs1, rfl, -, -⟩ := ((mem_kept g).1 c n (rel ++ [n]) r1 s1).1 h1
    obtain ⟨n2, c2, cs2, hmem, rfl, -, -⟩ := ((mem_kept g).2 rest rel r2 s2).1 h2
    exact ⟨rel, n, n2, cs1, cs2, by simp, rfl, hall _ hmem⟩

/-! ## Paths and their components -/

theorem splitChars_append_sep (a b : List Char) (h : '/' ∉ a) :
    splitChars (a ++ '/' :: b) = a :: splitChars b := by
  induction a with
  | nil => simp [splitChars]
  | cons c a ih =>
    simp only [List.mem_cons, not_or] at h
    have hc : c ≠ '/' := fun e => h.1 e.symm
    simp [splitChars, hc, ih h.2]

theorem splitChars_of_not_mem (a : List Char) (h : '/' ∉ a) : splitChars a = [a] := by
  induction a with
  | nil => simp [splitChars]
  | cons c a ih =>
    simp only [List.mem_cons, not_or] at h
    have hc : c ≠ '/' := fun e => h.1 e.symm
    simp [splitChars, hc, ih h.2]

theorem splitChars_sepJoin (n : String) (rest : List String)
    (h : ∀ c ∈ n :: rest, '/' ∉ c.data) :
    splitChars (n.data ++ sepJoin rest) = (n :: rest).map String.data := by
  induction rest generalizing n with
  | nil => simpa [sepJoin] using splitChars_of_not_mem n.data (h n (List.mem_cons_self _ _))
  | cons m rest ih =>
    rw [sepJoin, splitChars_append_sep _ _ (h n (List.mem_cons_self _ _)),
      ih m (fun c hc => h c (List.mem_cons_of_mem _ hc))]
    simp

theorem components_relStr (n : String) (rest : List String)
    (h : ∀ c ∈ n :: rest, '/' ∉ c.data) : components (relStr (n :: rest)) = n :: rest := by
  simp only [components, relStr, splitChars_sepJoin n rest h, List.map_map]
  have : (String.mk ∘ String.data) = id := by
    funext x
    rfl
  rw [this, List.map_id]

theorem legal_of_mem (es : List (String × Node)) (h : legalNamesList es = true)
    (n : String) (c : Node) (hmem : (n, c) ∈ es) : legalName n = true ∧ legalNames c = true := by
  induction es with
  | nil => cases hmem
  | cons e rest ih =>
    obtain ⟨m, d⟩ := e
    simp only [legalNamesList, Bool.and_eq_true] at h
    rcases List.mem_cons.1 hmem with he | he
    · obtain ⟨rfl, rfl⟩ := Prod.mk.inj he
      exact h.1
    · exact ih h.2 he

theorem legal_of_At {t x : Node} {cs : List String} (hat : Node.At t cs x)
    (h : legalNames t = true) : ∀ c ∈ cs, legalName c = true := by
  induction hat with
  | here t => intro c hc; cases hc
  | step hmem _ ih =>
    rw [legalNames] at h
    obtain ⟨h1, h2⟩ := legal_of_mem _ h _ _ hmem
    intro c hc
    rcases List.mem_cons.1 hc with rfl | hc
    · exact h1
    · exact ih h2 c hc

theorem not_sep_of_legal {c : String} (h : legalName c = true) : '/' ∉ c.data := by
  simp only [legalName, Bool.and_eq_true, Bool.not_eq_true'] at h
  intro hm
  have : c.data.contains '/' = true := by
    simpa using hm
  rw [this] at h
  cases h.2

/-! ## The report of a successful scan -/

theorem scan_ok_files {absRoot root : String} {g : Option GitIgnore} {t : Node} {p : Project}
    (h : scan absRoot root g t = .ok p) :
    p.Files = (kept g (basename root) [] (readDir t)).map (entryOf root) := by
  rw [scan_closed] at h
  cases hf : failure root g (basename root) [] (readDir t) with
  | some e => rw [hf] at h; cases h
  | none =>
    rw [hf] at h
    cases h
    rfl

theorem mem_kept_root {g : Option GitIgnore} {name : String} {t : Node} {r : List String}
    {sz : Int} : (r, sz) ∈ kept g name [] (readDir t) ↔
      Node.At t r (.file sz) ∧ chainOk g name [] r = true := by
  rw [(mem_kept g).1]
  constructor
  · rintro ⟨cs, rfl, hat, hok⟩
    exact ⟨At_readDir_file.1 hat, hok⟩
  · rintro ⟨hat, hok⟩
    exact ⟨r, by simp, At_readDir_file.2 hat, hok⟩

theorem mem_files {absRoot root : String} {g : Option GitIgnore} {t : Node} {p : Project}
    (h : scan absRoot root g t = .ok p) (f : FileInfo) :
    f ∈ p.Files ↔ ∃ cs sz, Node.At t cs (.file sz) ∧ chainOk g (basename root) [] cs = true ∧
      f = entryOf root (cs, sz) := by
  rw [scan_ok_files h, List.mem_map]
  constructor
  · rintro ⟨⟨r, sz⟩, hm, rfl⟩
    obtain ⟨hat, hok⟩ := mem_kept_root.1 hm
    exact ⟨r, sz, hat, hok, rfl⟩
  · rintro ⟨cs, sz, hat, hok, rfl⟩
    exact ⟨(cs, sz), mem_kept_root.2 ⟨hat, hok⟩, rfl⟩

theorem no_sep_of_At {t : Node} {cs : List String} {x : Node} (hl : legalNames t = true)
    (hat : Node.At t cs x) : ∀ c ∈ cs, '/' ∉ c.data :=
  fun c hc => not_sep_of_legal (legal_of_At hat hl c hc)

theorem FirstDiffLt.ne {a b : List String} (h : FirstDiffLt a b) : a ≠ b := by
  obtain ⟨pre, x, y, s1, s2, rfl, rfl, hlt⟩ := h
  intro e
  have e2 := List.append_cancel_left e
  simp only [List.cons.injEq] at e2
  rw [e2.1, nameLt_irrefl] at hlt
  cases hlt

theorem FirstDiffLt.ne_nil {a b : List String} (h : FirstDiffLt a b) : a ≠ [] ∧ b ≠ [] := by
  obtain ⟨pre, x, y, s1, s2, rfl, rfl, -⟩ := h
  simp

theorem components_relStr_of_At {t : Node} {cs : List String} {x : Node}
    (hl : legalNames t = true) (hat : Node.At t cs x) (hne : cs ≠ []) :
    components (relStr cs) = cs := by
  cases cs with
  | nil => exact absurd rfl hne
  | cons n rest => exact components_relStr n rest (no_sep_of_At hl hat)

theorem mem_dropLast_prefix {c : String} {cs : List String} (h : c ∈ cs.dropLast) :
    ∃ q, q <+: cs ∧ q.getLast? = some c := by
  obtain ⟨a, b, hab⟩ := List.append_of_mem h
  refine ⟨a ++ [c], ?_, by simp⟩
  have hcs : cs ≠ [] := by
    intro e
    rw [e] at h
    cases h
  have := List.dropLast_append_getLast hcs
  rw [hab] at this
  exact ⟨b ++ [cs.getLast hcs], by simpa using this⟩

theorem sepJoin_split (cs : List String) (hl : ∀ c ∈ cs, '/' ∉ c.data) :
    ∀ (n : String) (d r : List Char), '/' ∉ n.data →
      n.data ++ sepJoin cs = d ++ '/' :: r → ∃ q, q <+: cs ∧ d = n.data ++ sepJoin q := by
  induction cs with
  | nil =>
    intro n d r hn h
    simp only [sepJoin, List.append_nil] at h
    exact absurd (by rw [h]; simp) hn
  | cons m rest ih =>
    intro n d r hn h
    rw [sepJoin] at h
    rcases List.append_eq_append_iff.1 h with ⟨a, hd, ha⟩ | ⟨c, hnd, hc⟩
    · cases a with
      | nil => exact ⟨[], List.nil_prefix, by simpa [sepJoin] using hd⟩
      | cons x a =>
        simp only [List.cons_append, List.cons.injEq] at ha
        obtain ⟨q, hq, hqa⟩ := ih (fun c hc => hl c (List.mem_cons_of_mem _ hc)) m a r
          (hl m (List.mem_cons_self _ _)) ha.2
        refine ⟨m :: q, List.prefix_cons_iff.2 (Or.inr ⟨q, rfl, hq⟩), ?_⟩
        rw [hd, ← ha.1, hqa, sepJoin]
    · cases c with
      | nil => exact ⟨[], List.nil_prefix, by simpa [sepJoin] using hnd.symm⟩
      | cons x c =>
        simp only [List.cons_append, List.cons.injEq] at hc
        exact absurd (by rw [hnd, ← hc.1]; simp) hn

theorem files_pairwise_aux (absRoot root : String) (g : Option GitIgnore) (t : Node)
    (p : Project) (hl : legalNames t = true) (hd : distinctNames t = true)
    (h : scan absRoot root g t = .ok p) :
    p.Files.Pairwise (fun a b => FirstDiffLt (components a.Path) (components b.Path)) := by
  rw [scan_ok_files h, List.pairwise_map]
  have hp := (pairwise_kept g).1 (readDir t) (basename root) [] (ascending_readDir.1 t hd)
  refine hp.imp_of_mem ?_
  rintro ⟨r1, s1⟩ ⟨r2, s2⟩ h1 h2 hlt
  have e1 := components_relStr_of_At hl (mem_kept_root.1 h1).1 hlt.ne_nil.1
  have e2 := components_relStr_of_At hl (mem_kept_root.1 h2).1 hlt.ne_nil.2
  simp only [entryOf]
  simp only at e1 e2 hlt
  rw [e1, e2]
  exact hlt

/-! ## The extension -/

theorem extLoop_spec (y : List Char) (hy : y = [] ∨ ∃ y1, y = '/' :: y1) :
    ∀ (r acc : List Char), '/' ∉ r → '.' ∉ acc →
      IsExtOf (extLoop (r ++ y) acc) (r.reverse ++ acc) := by
  intro r
  induction r with
  | nil =>
    intro acc _ hacc
    have : extLoop ([] ++ y) acc = [] := by
      rcases hy with rfl | ⟨y1, rfl⟩ <;> simp [extLoop]
    rw [this]
    exact ⟨List.nil_suffix, Or.inl ⟨by simpa using hacc, rfl⟩⟩
  | cons c r ih =>
    intro acc hr hacc
    simp only [List.mem_cons, not_or] at hr
    have hc : c ≠ '/' := fun e => hr.1 e.symm
    by_cases hdot : c = '.'
    · subst hdot
      simp only [List.cons_append, extLoop, hc, if_false, if_true, List.reverse_cons,
        List.append_assoc, List.singleton_append]
      exact ⟨List.suffix_append _ _, Or.inr ⟨acc, rfl, hacc⟩⟩
    · simp only [List.cons_append, extLoop, hc, hdot, if_false, List.reverse_cons,
        List.append_assoc, List.singleton_append]
      refine ih (c :: acc) hr.2 ?_
      simp only [List.mem_cons, not_or]
      exact ⟨fun e => hdot e.symm, hacc⟩

theorem sepJoin_snoc (l : List String) (n : String) :
    sepJoin (l ++ [n]) = sepJoin l ++ '/' :: n.data := by
  induction l with
  | nil => simp [sepJoin]
  | cons a l ih => simp [sepJoin, ih]

theorem Ext_pathOf_snoc (root : String) (init : List String) (n : String)
    (hn : '/' ∉ n.data) : IsExtOf (Ext (pathOf root (init ++ [n]))).data n.data := by
  have hd : (pathOf root (init ++ [n])).data.reverse
      = n.data.reverse ++ '/' :: (root.data ++ sepJoin init).reverse := by
    rw [pathOf_data, sepJoin_snoc]
    simp
  have := extLoop_spec ('/' :: (root.data ++ sepJoin init).reverse) (Or.inr ⟨_, rfl⟩)
    n.data.reverse [] (by simpa using hn) (by simp)
  simpa [Ext, hd] using this

theorem stripSlashes_of_head (c : Char) (rest : List Char) (hc : c ≠ '/') :
    stripSlashes (c :: rest) = c :: rest := by
  cases rest with
  | nil => rfl
  | cons d rest => simp [stripSlashes, hc]

theorem Ext_root (root : String) (hr : root.data.getLast? ≠ some '/') :
    IsExtOf (Ext root).data (basename root).data := by
  cases hrev : root.data.reverse with
  | nil =>
    simp only [Ext, basename, hrev, stripSlashes, extLoop]
    exact ⟨List.nil_suffix, Or.inl ⟨by simp, rfl⟩⟩
  | cons c rest =>
    have hc : c ≠ '/' := by
      intro e
      apply hr
      rw [List.getLast?_eq_head?_reverse, hrev, e]
      rfl
    simp only [Ext, basename, hrev, stripSlashes_of_head c rest hc]
    have hy : rest.dropWhile (fun x => x != '/') = [] ∨
        ∃ y1, rest.dropWhile (fun x => x != '/') = '/' :: y1 := by
      cases hdw : rest.dropWhile (fun x => x != '/') with
      | nil => exact Or.inl rfl
      | cons a y1 =>
        have := List.head_dropWhile_not (fun x => x != '/') rest (by rw [hdw]; simp)
        simp only [hdw, List.head_cons, bne_iff_ne, ne_eq, Decidable.not_not,
          decide_not, Bool.not_eq_true', decide_eq_false_iff_not] at this
        exact Or.inr ⟨y1, by simpa using this⟩
    have hsplit : c :: rest
        = (c :: rest.takeWhile (fun x => x != '/')) ++ rest.dropWhile (fun x => x != '/') := by
      simp [List.takeWhile_append_dropWhile]
    have hns : '/' ∉ c :: rest.takeWhile (fun x => x != '/') := by
      simp only [List.mem_cons, not_or]
      refine ⟨fun e => hc e.symm, fun hm => ?_⟩
      have := List.mem_takeWhile_imp hm
      simp at this
    have := extLoop_spec _ hy (c :: rest.takeWhile (fun x => x != '/')) [] hns (by simp)
    rw [← hsplit] at this
    simpa using this

/-! ## Readable trees and distinct names -/

theorem readable_of_mem (es : List (String × Node)) (h : readableList es = true)
    (n : String) (c : Node) (hmem : (n, c) ∈ es) : readable c = true := by
  induction es with
  | nil => cases hmem
  | cons e rest ih =>
    obtain ⟨m, d⟩ := e
    simp only [readableList, Bool.and_eq_true] at h
    rcases List.mem_cons.1 hmem with he | he
    · obtain ⟨rfl, rfl⟩ := Prod.mk.inj he
      exact h.1
    · exact ih h.2 he

theorem not_fails_of_readable {t x : Node} {cs : List String} (hat : Node.At t cs x)
    (h : readable t = true) : x.fails = false := by
  induction hat with
  | here t => cases t <;> simp_all [readable, Node.fails]
  | step hmem _ ih =>
    rw [readable] at h
    exact ih (readable_of_mem _ h _ _ hmem)

theorem failure_none_of_readable (root : String) (g : Option GitIgnore) (name : String)
    (rel : List String) (t : Node) (h : readable t = true) :
    failure root g name rel (readDir t) = none := by
  cases hf : failure root g name rel (readDir t) with
  | none => rfl
  | some e =>
    have hs : (failure root g name rel (readDir t)).isSome = true := by rw [hf]; rfl
    obtain ⟨cs, x1, hat, hfl, -⟩ := ((failure_isSome root g).1 _ _ _).1 hs
    obtain ⟨x, hx, rfl⟩ := At_of_At_readDir cs t x1 hat
    rw [fails_readDir, not_fails_of_readable hx h] at hfl
    cases hfl

theorem distinct_of_mem (es : List (String × Node)) (h : distinctNamesList es = true)
    (n : String) (c : Node) (hmem : (n, c) ∈ es) :
    distinctNames c = true ∧ ∀ c2, (n, c2) ∈ es → c2 = c := by
  induction es with
  | nil => cases hmem
  | cons e rest ih =>
    obtain ⟨m, d⟩ := e
    simp only [distinctNamesList, Bool.and_eq_true, Bool.not_eq_true'] at h
    obtain ⟨⟨hm, hd⟩, hrest⟩ := h
    have hnot : ∀ c2, (m, c2) ∉ rest := by
      intro c2 hc2
      have : (rest.map Prod.fst).contains m = true := by
        have hm2 : m ∈ rest.map Prod.fst := List.mem_map.2 ⟨(m, c2), hc2, rfl⟩
        simpa using hm2
      rw [this] at hm
      cases hm
    rcases List.mem_cons.1 hmem with he | he
    · obtain ⟨rfl, rfl⟩ := Prod.mk.inj he
      refine ⟨hd, fun c2 hc2 => ?_⟩
      rcases List.mem_cons.1 hc2 with h2 | h2
      · exact (Prod.mk.inj h2).2
      · exact absurd h2 (hnot c2)
    · obtain ⟨h1, h2⟩ := ih hrest he
      refine ⟨h1, fun c2 hc2 => ?_⟩
      rcases List.mem_cons.1 hc2 with h3 | h3
      · obtain ⟨rfl, rfl⟩ := Prod.mk.inj h3
        exact absurd he (hnot c)
      · exact h2 c2 h3

theorem At_unique {t x : Node} {cs : List String} (hat : Node.At t cs x)
    (hd : distinctNames t = true) : ∀ y, Node.At t cs y → y = x := by
  induction hat with
  | here t => intro y hy; exact At_nil.1 hy
  | step hmem _ ih =>
    intro y hy
    rw [distinctNames] at hd
    obtain ⟨es2, c2, he, hmem2, hat2⟩ := At_cons.1 hy
    cases he
    obtain ⟨h1, h2⟩ := distinct_of_mem _ hd _ _ hmem
    rw [h2 c2 hmem2] at hat2
    exact ih h1 y hat2

theorem chainOk_root_iff (g : Option GitIgnore) (name : String) (cs : List String)
    (hroot : excluded g name [] = false) :
    chainOk g name [] cs = true ↔
      ∀ q n, q ++ [n] <+: cs →
        n ∉ ignoredDirs ∧ matchesPath g (relStr (q ++ [n])) = false := by
  rw [chainOk_iff]
  constructor
  · intro h q n hq
    have := h (q ++ [n]) hq
    simpa [excluded] using this
  · intro h q hq
    rcases List.eq_nil_or_concat q with rfl | ⟨q1, n, rfl⟩
    · simpa using hroot
    · rw [List.concat_eq_append] at hq ⊢
      have := h q1 n hq
      simpa [excluded] using this

/-! ## A directory with and without its ignore file -/

theorem walkFn_blank (root : String) (m : GitIgnore) (hm : ∀ s, m.MatchesPath s = false) :
    walkFn root (some m) = walkFn root none := by
  funext files path info err
  simp only [walkFn, matchesPath, hm]

theorem scan_blank (absRoot root : String) (m : GitIgnore) (hm : ∀ s, m.MatchesPath s = false)
    (t : Node) : scan absRoot root (some m) t = scan absRoot root none t := by
  simp only [scan, walkFn_blank root m hm]

theorem insertEntry_of_le (e : String × Node) (l : List (String × Node))
    (h : ∀ y ∈ l, nameLt y.1 e.1 = false) : insertEntry e l = e :: l := by
  cases l with
  | nil => rfl
  | cons y ys => simp [insertEntry, h y (List.mem_cons_self _ _)]

theorem nameLt_false_trans {a b c : String} (h1 : nameLt b a = false)
    (h2 : nameLt c b = false) : nameLt c a = false := by
  simp only [nameLt, decide_eq_false_iff_not, not_lt] at *
  exact le_trans h1 h2

theorem nameLt_asymm {a b : String} (h : nameLt a b = true) : nameLt b a = false := by
  simp only [nameLt, decide_eq_true_eq, decide_eq_false_iff_not, not_lt] at *
  exact le_of_lt h

theorem sorted_insertEntry (e : String × Node) :
    ∀ l : List (String × Node), l.Pairwise (fun a b => nameLt b.1 a.1 = false) →
      (insertEntry e l).Pairwise (fun a b => nameLt b.1 a.1 = false) := by
  intro l
  induction l with
  | nil => intro _; simp [insertEntry]
  | cons x xs ih =>
    intro h
    rw [List.pairwise_cons] at h
    simp only [insertEntry]
    cases hlt : nameLt x.1 e.1 with
    | true =>
      simp only [if_true, List.pairwise_cons]
      refine ⟨fun y hy => ?_, ih h.2⟩
      rcases (mem_insertEntry _ _ _).1 hy with rfl | hy
      · exact nameLt_asymm hlt
      · exact h.1 y hy
    | false =>
      simp only [Bool.false_eq_true, if_false, List.pairwise_cons]
      refine ⟨fun y hy => ?_, h⟩
      rcases List.mem_cons.1 hy with rfl | hy
      · exact hlt
      · exact nameLt_false_trans hlt (h.1 y hy)

theorem sorted_readDirNames (es : List (String × Node)) :
    (readDirNames es).Pairwise (fun a b => nameLt b.1 a.1 = false) := by
  induction es with
  | nil => simp [readDirNames]
  | cons e rest ih =>
    obtain ⟨n, c⟩ := e
    rw [readDirNames]
    exact sorted_insertEntry _ _ ih

theorem filter_insertEntry (f : String × Node → Bool) (e : String × Node) :
    ∀ l : List (String × Node), l.Pairwise (fun a b => nameLt b.1 a.1 = false) →
      (insertEntry e l).filter f
        = if f e = true then insertEntry e (l.filter f) else l.filter f := by
  intro l
  induction l with
  | nil =>
    intro _
    cases hfe : f e <;> simp [insertEntry, hfe]
  | cons x xs ih =>
    intro h
    rw [List.pairwise_cons] at h
    simp only [insertEntry]
    cases hlt : nameLt x.1 e.1 with
    | true =>
      simp only [if_true, List.filter_cons, ih h.2]
      cases hfx : f x <;> cases hfe : f e <;> simp [insertEntry, hlt]
    | false =>
      simp only [Bool.false_eq_true, if_false]
      cases hfe : f e with
      | false => simp [List.filter_cons, hfe]
      | true =>
        have hle : ∀ y ∈ (x :: xs).filter f, nameLt y.1 e.1 = false := by
          intro y hy
          rcases List.mem_cons.1 (List.mem_filter.1 hy).1 with rfl | hy2
          · exact hlt
          · exact nameLt_false_trans hlt (h.1 y hy2)
        rw [if_pos rfl, insertEntry_of_le e _ hle, List.filter_cons, hfe]
        simp

theorem readDirNames_filter (es : List (String × Node)) :
    readDirNames (es.filter notGitignore) = (readDirNames es).filter notGitignore := by
  induction es with
  | nil => simp [readDirNames]
  | cons e rest ih =>
    obtain ⟨n, c⟩ := e
    rw [readDirNames, filter_insertEntry _ _ _ (sorted_readDirNames rest), List.filter_cons]
    have hn : notGitignore (n, readDir c) = notGitignore (n, c) := rfl
    rw [hn]
    cases notGitignore (n, c) with
    | false => simpa using ih
    | true => simp [readDirNames, ih]

theorem failureList_filter (root : String) (g : Option GitIgnore) (rel : List String) :
    ∀ l : List (String × Node),
      (∀ x ∈ l, notGitignore x = false → failure root g x.1 (rel ++ [x.1]) x.2 = none) →
      failureList root g rel (l.filter notGitignore) = failureList root g rel l := by
  intro l
  induction l with
  | nil => intro _; rfl
  | cons x xs ih =>
    obtain ⟨n, c⟩ := x
    intro h
    have ih2 := ih (fun y hy => h y (List.mem_cons_of_mem _ hy))
    rw [List.filter_cons]
    cases hx : notGitignore (n, c) with
    | true => simp only [if_true, failureList, ih2]
    | false =>
      have := h (n, c) (List.mem_cons_self _ _) hx
      simp only at this
      simp only [Bool.false_eq_true, if_false, failureList, this, ih2]

theorem keptList_filter (g : Option GitIgnore) :
    ∀ l : List (String × Node),
      keptList g [] (l.filter notGitignore)
        = (keptList g [] l).filter (fun r => r.1.head? != some ".gitignore") := by
  intro l
  induction l with
  | nil => rfl
  | cons x xs ih =>
    obtain ⟨n, c⟩ := x
    have hhead : ∀ r ∈ kept g n ([] ++ [n]) c, r.1.head? = some n := by
      rintro ⟨r, sz⟩ hr
      obtain ⟨cs, rfl, -, -⟩ := ((mem_kept g).1 c n _ r sz).1 hr
      rfl
    rw [List.filter_cons, keptList, List.filter_append, ← ih]
    cases hx : notGitignore (n, c) with
    | true =>
      simp only [if_true, keptList]
      congr 1
      symm
      rw [List.filter_eq_self]
      intro r hr
      rw [hhead r hr]
      simpa [notGitignore] using hx
    | false =>
      simp only [Bool.false_eq_true, if_false]
      have : (kept g n ([] ++ [n]) c).filter (fun r => r.1.head? != some ".gitignore") = [] := by
        rw [List.filter_eq_nil_iff]
        intro r hr
        rw [hhead r hr]
        simpa [notGitignore] using hx
      rw [this, List.nil_append]

theorem find_gitignore_none (es : List (String × Node))
    (h : ∀ x ∈ es, x.1 ≠ ".gitignore") :
    es.find? (fun e => decide (e.1 = ".gitignore")) = none := by
  rw [List.find?_eq_none]
  intro x hx
  simpa using h x hx

theorem loadGitignore_absent (C : Node → Option GitIgnore) (es : List (String × Node))
    (h : ∀ x ∈ es, x.1 ≠ ".gitignore") : loadGitignore C (.dir es) = none := by
  simp only [loadGitignore, statChild, find_gitignore_none es h]

theorem loadGitignore_present (C : Node → Option GitIgnore) (es1 es2 : List (String × Node))
    (sz : Int) (h : ∀ x ∈ es1, x.1 ≠ ".gitignore") :
    loadGitignore C (.dir (es1 ++ (".gitignore", .file sz) :: es2)) = C (.file sz) := by
  have : (es1 ++ (".gitignore", Node.file sz) :: es2).find? (fun e => decide (e.1 = ".gitignore"))
      = some (".gitignore", .file sz) := by
    rw [List.find?_append, find_gitignore_none es1 h]
    simp
  simp only [loadGitignore, statChild, this]

theorem filter_notGitignore (es1 es2 : List (String × Node)) (sz : Int)
    (h : ∀ x ∈ es1 ++ es2, x.1 ≠ ".gitignore") :
    (es1 ++ (".gitignore", Node.file sz) :: es2).filter notGitignore = es1 ++ es2 := by
  have hall : ∀ l : List (String × Node), (∀ x ∈ l, x.1 ≠ ".gitignore") →
      l.filter notGitignore = l := by
    intro l hl
    rw [List.filter_eq_self]
    intro x hx
    simpa [notGitignore] using hl x hx
  rw [List.filter_append, List.filter_cons,
    hall es1 (fun x hx => h x (List.mem_append_left _ hx)),
    hall es2 (fun x hx => h x (List.mem_append_right _ hx))]
  simp [notGitignore]

theorem relStr_ne_gitignore (n : String) (cs : List String) (hn : n ≠ ".gitignore") :
    relStr (n :: cs) ≠ ".gitignore" := by
  intro e
  have hd := congrArg String.data e
  cases cs with
  | nil =>
    simp only [relStr, sepJoin, List.append_nil] at hd
    exact hn (String.ext hd)
  | cons m rest =>
    simp only [relStr, sepJoin] at hd
    have h2 : '/' ∈ n.data ++ '/' :: (m.data ++ sepJoin rest) := by simp
    rw [hd] at h2
    revert h2
    decide

theorem gitignore_entry_only (absRoot root : String) (es1 es2 : List (String × Node))
    (sz : Int) (h : ∀ x ∈ es1 ++ es2, x.1 ≠ ".gitignore") :
    match scan absRoot root none (.dir (es1 ++ es2)) with
    | .error e =>
      scan absRoot root none (.dir (es1 ++ (".gitignore", .file sz) :: es2)) = .error e
    | .ok p =>
      ∃ files, scan absRoot root none (.dir (es1 ++ (".gitignore", .file sz) :: es2))
          = .ok ⟨p.Root, files⟩ ∧
        files.filter (fun f => f.Path != ".gitignore") = p.Files := by
  have hfil := filter_notGitignore es1 es2 sz h
  have hL : readDirNames (es1 ++ es2)
      = (readDirNames (es1 ++ (".gitignore", Node.file sz) :: es2)).filter notGitignore := by
    rw [← readDirNames_filter, hfil]
  -- what the sorted listing holds under the name `.gitignore`
  have hgit : ∀ x ∈ readDirNames (es1 ++ (".gitignore", Node.file sz) :: es2),
      notGitignore x = false → x.2 = .file sz := by
    rintro ⟨n, c1⟩ hx hn
    obtain ⟨c, hc, rfl⟩ := (mem_readDirNames _ _ _).1 hx
    have hn2 : n = ".gitignore" := by simpa [notGitignore] using hn
    rcases List.mem_append.1 hc with h1 | h1
    · exact absurd hn2 (h _ (List.mem_append_left _ h1))
    · rcases List.mem_cons.1 h1 with h2 | h2
      · obtain ⟨-, rfl⟩ := Prod.mk.inj h2
        rfl
      · exact absurd hn2 (h _ (List.mem_append_right _ h2))
  have hfail : failureList root none [] (readDirNames (es1 ++ es2))
      = failureList root none [] (readDirNames (es1 ++ (".gitignore", Node.file sz) :: es2)) := by
    rw [hL]
    apply failureList_filter
    intro x hx hn
    rw [hgit x hx hn, failure]
  have hkept : (keptList none [] (readDirNames (es1 ++ es2))).map (entryOf root)
      = ((keptList none [] (readDirNames (es1 ++ (".gitignore", Node.file sz) :: es2))).map
          (entryOf root)).filter (fun f => f.Path != ".gitignore") := by
    rw [hL, keptList_filter, List.filter_map]
    congr 1
    apply List.filter_congr
    rintro ⟨r, s1⟩ hr
    obtain ⟨n, c, cs, hmem, rfl, hat, -⟩ := ((mem_kept none).2 _ [] r s1).1 hr
    by_cases hn : n = ".gitignore"
    · have hc := hgit (n, c) hmem (by simp [notGitignore, hn])
      simp only at hc
      subst hc
      have hcs : cs = [] := by
        cases cs with
        | nil => rfl
        | cons a b =>
          obtain ⟨es3, c3, he, -, -⟩ := At_cons.1 hat
          cases he
      subst hcs hn
      rfl
    · have h1 := relStr_ne_gitignore n cs hn
      have a : (some n != some ".gitignore") = true := by simp [hn]
      have b : (relStr (n :: cs) != ".gitignore") = true := bne_iff_ne.2 h1
      simp only [List.nil_append, List.head?_cons, Function.comp, entryOf]
      rw [a, b]
  rw [scan_closed, scan_closed]
  simp only [readDir, failure, kept]
  by_cases hx : excluded none (basename root) [] = true
  · simp only [hx, if_true]
    exact ⟨[], rfl, rfl⟩
  · simp only [hx, Bool.false_eq_true, if_false, hfail]
    cases failureList root none [] (readDirNames (es1 ++ (".gitignore", Node.file sz) :: es2)) with
    | some e => rfl
    | none => exact ⟨_, rfl, hkept.symm⟩

/-! ## The claims -/

/-- C1. When the scan succeeds, every emitted entry is the entry of a file that
is reached from the root through directories none of whose names is a denylist
name, and nothing is emitted when the root itself has a denylist name; so, in
a tree of legal entry names, no component of an emitted path other than the
last is a denylist name. -/
theorem no_file_below_denylisted_dir (absRoot root : String) (g : Option GitIgnore) (t : Node)
    (p : Project) (h : scan absRoot root g t = .ok p) :
    (∀ f ∈ p.Files, ∃ cs sz, Node.At t cs (.file sz) ∧ f.Path = relStr cs ∧
      ∀ c ∈ cs.dropLast, c ∉ ignoredDirs) ∧
    (basename root ∈ ignoredDirs → p.Files = []) ∧
    (legalNames t = true →
      ∀ f ∈ p.Files, ∀ c ∈ (components f.Path).dropLast, c ∉ ignoredDirs) := by
  have key : ∀ f ∈ p.Files, ∃ cs sz, Node.At t cs (.file sz) ∧ f.Path = relStr cs ∧
      ∀ c ∈ cs.dropLast, c ∉ ignoredDirs := by
    intro f hf
    obtain ⟨cs, sz, hat, hok, rfl⟩ := (mem_files h f).1 hf
    refine ⟨cs, sz, hat, rfl, fun c hc => ?_⟩
    obtain ⟨q, hq, hlast⟩ := mem_dropLast_prefix hc
    have hex := (chainOk_iff g _ _ _).1 hok q hq
    rw [hlast] at hex
    simp only [Option.getD_some, excluded, Bool.or_eq_false_iff, decide_eq_false_iff_not] at hex
    exact hex.1
  refine ⟨key, ?_, ?_⟩
  · intro hb
    rw [List.eq_nil_iff_forall_not_mem]
    intro f hf
    obtain ⟨cs, sz, -, hok, -⟩ := (mem_files h f).1 hf
    have hex := (chainOk_iff g _ _ _).1 hok [] List.nil_prefix
    simp [excluded, entryName, hb] at hex
  · intro hl f hf c hc
    obtain ⟨cs, sz, hat, hp, hcs⟩ := key f hf
    rw [hp] at hc
    cases cs with
    | nil =>
      have : components (relStr []) = ["."] := by rfl
      rw [this] at hc
      cases hc
    | cons n rest =>
      rw [components_relStr_of_At hl hat (by simp)] at hc
      exact hcs c hc

/-- C1, witness: of the sample tree only `README` and `src/main.go` are
reported. -/
theorem no_file_below_denylisted_dir_witness :
    scan "/w" "." none sampleTree
      = .ok ⟨"/w", [⟨"README", 4, ""⟩, ⟨"src/main.go", 9, ".go"⟩]⟩ ∧
    legalNames sampleTree = true ∧
    ∀ f ∈ [(⟨"README", 4, ""⟩ : FileInfo), ⟨"src/main.go", 9, ".go"⟩],
      ∀ c ∈ (components f.Path).dropLast, c ∉ ignoredDirs :=
  ⟨by rfl, by decide,
   (no_file_below_denylisted_dir "/w" "." none sampleTree _ (by rfl)).2.2 (by decide)⟩

/-- C3. With a loaded matcher `m`, when the scan succeeds `m` matches no emitted
path, and every emitted entry is the entry of a file reached from the root
through directories whose relative paths, that of the root included, `m` does
not match; so, in a tree of legal entry names, `m` matches no part of an
emitted path that ends before a separator.  In particular, if `m` matches every
path ending in `.log`, no emitted path ends in `.log`. -/
theorem no_file_matched_or_below_matched_dir (absRoot root : String) (m : GitIgnore) (t : Node)
    (p : Project) (h : scan absRoot root (some m) t = .ok p) :
    (∀ f ∈ p.Files, m.MatchesPath f.Path = false ∧
      ∃ cs sz, Node.At t cs (.file sz) ∧ f.Path = relStr cs ∧
        ∀ q, q <+: cs → m.MatchesPath (relStr q) = false) ∧
    (legalNames t = true → ∀ f ∈ p.Files, ∀ d r : String,
      f.Path = d ++ "/" ++ r → m.MatchesPath d = false) ∧
    ((∀ s : String, ".log".data <:+ s.data → m.MatchesPath s = true) →
      ∀ f ∈ p.Files, ¬ ".log".data <:+ f.Path.data) := by
  have key : ∀ f ∈ p.Files, m.MatchesPath f.Path = false ∧
      ∃ cs sz, Node.At t cs (.file sz) ∧ f.Path = relStr cs ∧
        ∀ q, q <+: cs → m.MatchesPath (relStr q) = false := by
    intro f hf
    obtain ⟨cs, sz, hat, hok, rfl⟩ := (mem_files h f).1 hf
    have hall : ∀ q, q <+: cs → m.MatchesPath (relStr q) = false := by
      intro q hq
      have hex := (chainOk_iff (some m) _ _ _).1 hok q hq
      simp only [excluded, Bool.or_eq_false_iff, matchesPath, List.nil_append] at hex
      exact hex.2
    exact ⟨hall cs List.prefix_rfl, cs, sz, hat, rfl, hall⟩
  refine ⟨key, ?_, fun hlog f hf hsuf => ?_⟩
  · intro hl f hf d r hdr
    obtain ⟨-, cs, sz, hat, hp, hall⟩ := key f hf
    rw [hp] at hdr
    cases cs with
    | nil =>
      have h1 := congrArg String.data hdr
      simp only [relStr, String.data_append] at h1
      have h2 : '/' ∈ ['.'] := by rw [h1]; simp
      simp at h2
    | cons n rest =>
      have hns := no_sep_of_At hl hat
      have h1 := congrArg String.data hdr
      simp only [relStr, String.data_append] at h1
      have h2 : n.data ++ sepJoin rest = d.data ++ '/' :: r.data := by
        rw [h1]
        simp
      obtain ⟨q, hq, hd⟩ := sepJoin_split rest (fun c hc => hns c (List.mem_cons_of_mem _ hc))
        n d.data r.data (hns n (List.mem_cons_self _ _)) h2
      have := hall (n :: q) (List.prefix_cons_iff.2 (Or.inr ⟨q, rfl, hq⟩))
      have hde : relStr (n :: q) = d := String.ext (by simp [relStr, hd])
      rwa [hde] at this
  · have := (key f hf).1
    rw [hlog f.Path hsuf] at this
    cases this

/-- C3, witness: with the matcher of `*.log`, only `src/c.go` is reported:
the log files are skipped at both depths and the directory `old.log` is
pruned. -/
theorem no_file_matched_or_below_matched_dir_witness :
    scan "/w" "." (some logMatcher) logTree = .ok ⟨"/w", [⟨"src/c.go", 4, ".go"⟩]⟩ ∧
    (∀ f ∈ [(⟨"src/c.go", 4, ".go"⟩ : FileInfo)], logMatcher.MatchesPath f.Path = false ∧
      ∃ cs sz, Node.At logTree cs (.file sz) ∧ f.Path = relStr cs ∧
        ∀ q, q <+: cs → logMatcher.MatchesPath (relStr q) = false) :=
  ⟨by rfl, (no_file_matched_or_below_matched_dir "/w" "." logMatcher logTree _ (by rfl)).1⟩

/-- C7. In a tree of legal, distinct sibling names, the files of a successful
scan are in depth-first pre-order with each directory listed in ascending
order of name: of any two emitted entries, the one that comes first in `Files`
has the smaller name at the first component where the two paths differ. -/
theorem files_in_walk_order (absRoot root : String) (g : Option GitIgnore) (t : Node)
    (p : Project) (hl : legalNames t = true) (hd : distinctNames t = true)
    (h : scan absRoot root g t = .ok p) :
    p.Files.Pairwise (fun a b => FirstDiffLt (components a.Path) (components b.Path)) :=
  files_pairwise_aux absRoot root g t p hl hd h

/-- C7, witness: the example tree stores `sub`, `build`, `a.txt` in that order;
the report lists `a.txt` before `sub/b.txt`. -/
theorem files_in_walk_order_witness :
    legalNames exampleTree = true ∧ distinctNames exampleTree = true ∧
    scan "/R" "." none exampleTree
      = .ok ⟨"/R", [⟨"a.txt", 10, ".txt"⟩, ⟨"sub/b.txt", 3, ".txt"⟩]⟩ ∧
    [(⟨"a.txt", 10, ".txt"⟩ : FileInfo), ⟨"sub/b.txt", 3, ".txt"⟩].Pairwise
      (fun a b => FirstDiffLt (components a.Path) (components b.Path)) :=
  ⟨by decide, by decide, by rfl,
   files_in_walk_order "/R" "." none exampleTree _ (by decide) (by decide) (by rfl)⟩

/-- C6. In a tree whose sibling names are distinct, non-empty and free of path
separators, every path of a successful scan is relative (it is not empty and
does not begin with a path separator) and no two entries of `Files` share a
path. -/
theorem paths_relative_and_unique (absRoot root : String) (g : Option GitIgnore) (t : Node)
    (p : Project) (hl : legalNames t = true) (hd : distinctNames t = true)
    (h : scan absRoot root g t = .ok p) :
    (∀ f ∈ p.Files, f.Path.data ≠ [] ∧ f.Path.data.head? ≠ some '/') ∧
    (p.Files.map FileInfo.Path).Nodup := by
  constructor
  · intro f hf
    obtain ⟨cs, sz, hat, hok, rfl⟩ := (mem_files h f).1 hf
    cases cs with
    | nil => exact ⟨by simp [entryOf, relStr], by simp [entryOf, relStr]⟩
    | cons n rest =>
      have hn := legal_of_At hat hl n (List.mem_cons_self _ _)
      have hs := not_sep_of_legal hn
      simp only [legalName, Bool.and_eq_true, bne_iff_ne, ne_eq] at hn
      simp only [entryOf, relStr]
      cases hnd : n.data with
      | nil => exact absurd hnd hn.1
      | cons c cs2 =>
        rw [hnd] at hs
        simp only [List.mem_cons, not_or] at hs
        refine ⟨by simp, ?_⟩
        simp only [List.cons_append, List.head?_cons]
        exact fun e => hs.1 (Option.some.inj e).symm
  · have hw := files_pairwise_aux absRoot root g t p hl hd h
    rw [List.Nodup, List.pairwise_map]
    refine hw.imp ?_
    intro a b hab e
    rw [e] at hab
    exact hab.ne rfl

/-- C6, witness: the two paths of the example report. -/
theorem paths_relative_and_unique_witness :
    legalNames exampleTree = true ∧ distinctNames exampleTree = true ∧
    scan "/R" "." none exampleTree
      = .ok ⟨"/R", [⟨"a.txt", 10, ".txt"⟩, ⟨"sub/b.txt", 3, ".txt"⟩]⟩ ∧
    (∀ f ∈ [(⟨"a.txt", 10, ".txt"⟩ : FileInfo), ⟨"sub/b.txt", 3, ".txt"⟩],
      f.Path.data ≠ [] ∧ f.Path.data.head? ≠ some '/') ∧
    ([(⟨"a.txt", 10, ".txt"⟩ : FileInfo), ⟨"sub/b.txt", 3, ".txt"⟩].map FileInfo.Path).Nodup :=
  ⟨by decide, by decide, by rfl,
   paths_relative_and_unique "/R" "." none exampleTree _ (by decide) (by decide) (by rfl)⟩

/-- C5. In a tree of legal entry names (and with a root path that ends in a
separator only if the root is a directory), every emitted entry is the entry of
a file of the tree whose `Ext` is the extension of that file's base name: the
suffix of the base name that starts at its last `.`, empty exactly when the
base name holds no `.`.  Below a root directory the base name is the last
component of the emitted path, so a `.` in a parent directory's name never
contributes. -/
theorem ext_is_suffix_from_last_dot (absRoot root : String) (g : Option GitIgnore) (t : Node)
    (p : Project) (hl : legalNames t = true)
    (hr : t.isDir = false → root.data.getLast? ≠ some '/')
    (h : scan absRoot root g t = .ok p) :
    ∀ f ∈ p.Files, ∃ cs sz, Node.At t cs (.file sz) ∧ f.Path = relStr cs ∧
      IsExtOf f.Ext.data (entryName root cs).data ∧
      (cs ≠ [] → (components f.Path).getLast? = some (entryName root cs)) := by
  intro f hf
  obtain ⟨cs, sz, hat, hok, rfl⟩ := (mem_files h f).1 hf
  refine ⟨cs, sz, hat, rfl, ?_, ?_⟩
  · rcases List.eq_nil_or_concat cs with rfl | ⟨init, n, rfl⟩
    · have ht : t = .file sz := (At_nil.1 hat).symm
      subst ht
      exact Ext_root root (hr rfl)
    · have hn := no_sep_of_At hl hat n (by simp)
      simpa [entryOf, entryName] using Ext_pathOf_snoc root init n hn
  · intro hne
    simp only [entryOf]
    rw [components_relStr_of_At hl hat hne, entryName]
    cases hlast : cs.getLast? with
    | none => exact absurd (List.getLast?_eq_none_iff.1 hlast) hne
    | some n => rfl

/-- C5, witness: `archive.tar.gz` yields `.gz`, `README` yields the empty
extension, and `notes` inside the directory `v1.2` yields the empty extension
too. -/
theorem ext_is_suffix_from_last_dot_witness :
    legalNames extTree = true ∧
    scan "/w" "." none extTree
      = .ok ⟨"/w", [⟨"README", 2, ""⟩, ⟨"archive.tar.gz", 1, ".gz"⟩, ⟨"v1.2/notes", 3, ""⟩]⟩ ∧
    ∀ f ∈ [(⟨"README", 2, ""⟩ : FileInfo), ⟨"archive.tar.gz", 1, ".gz"⟩, ⟨"v1.2/notes", 3, ""⟩],
      ∃ cs sz, Node.At extTree cs (.file sz) ∧ f.Path = relStr cs ∧
        IsExtOf f.Ext.data (entryName "." cs).data ∧
        (cs ≠ [] → (components f.Path).getLast? = some (entryName "." cs)) :=
  ⟨by decide, by rfl,
   ext_is_suffix_from_last_dot "/w" "." none extTree _ (by decide) (by decide) (by rfl)⟩

/-- C2. For a readable directory tree with distinct sibling names whose root
is not excluded, the scan succeeds, and its files are exactly the visible
files below the root: every entry is the entry of a visible non-directory of
the tree, with that file's relative path and size, and every visible
non-directory has such an entry.  No directory is emitted: in a tree of legal
names no emitted path is the path of a directory below the root. -/
theorem files_are_the_visible_files (absRoot root : String) (g : Option GitIgnore)
    (es : List (String × Node)) (hr : readable (.dir es) = true)
    (hd : distinctNames (.dir es) = true)
    (hn : basename root ∉ ignoredDirs) (hm : matchesPath g "." = false) :
    ∃ files, scan absRoot root g (.dir es) = .ok ⟨absRoot, files⟩ ∧
      (∀ f ∈ files, ∃ cs sz, cs ≠ [] ∧ Node.At (.dir es) cs (.file sz) ∧ Visible g cs ∧
        f.Path = relStr cs ∧ f.Size = sz) ∧
      (∀ cs sz, Node.At (.dir es) cs (.file sz) → Visible g cs →
        ∃ f ∈ files, f.Path = relStr cs ∧ f.Size = sz) ∧
      (legalNames (.dir es) = true → ∀ f ∈ files, ∀ cs x, cs ≠ [] →
        Node.At (.dir es) cs x → f.Path = relStr cs → x.isDir = false) := by
  have hroot : excluded g (basename root) [] = false := by
    simp [excluded, hn, relStr, hm]
  have hscan : scan absRoot root g (.dir es)
      = .ok ⟨absRoot, (kept g (basename root) [] (readDir (.dir es))).map (entryOf root)⟩ := by
    rw [scan_closed, failure_none_of_readable root g _ _ _ hr]
  have hne : ∀ {cs : List String} {sz : Int}, Node.At (.dir es) cs (.file sz) → cs ≠ [] := by
    intro cs sz hat e
    subst e
    have := At_nil.1 hat
    cases this
  refine ⟨_, hscan, ?_, ?_, ?_⟩
  · intro f hf
    obtain ⟨cs, sz, hat, hok, rfl⟩ := (mem_files hscan f).1 hf
    exact ⟨cs, sz, hne hat, hat, (chainOk_root_iff g _ cs hroot).1 hok, rfl, rfl⟩
  · intro cs sz hat hv
    exact ⟨entryOf root (cs, sz),
      (mem_files hscan _).2 ⟨cs, sz, hat, (chainOk_root_iff g _ cs hroot).2 hv, rfl⟩, rfl, rfl⟩
  · intro hl f hf cs x hcs hat hp
    obtain ⟨cs2, sz, hat2, -, rfl⟩ := (mem_files hscan f).1 hf
    have e1 := components_relStr_of_At hl hat hcs
    have e2 := components_relStr_of_At hl hat2 (hne hat2)
    simp only [entryOf] at hp
    rw [← hp, e2] at e1
    subst e1
    rw [At_unique hat2 hd x hat]
    rfl

/-- C2, witness: the example of the specification, a root holding `a.txt`
(10 bytes), `build/x.o` (5 bytes) and `sub/b.txt` (3 bytes), yields exactly
the entries of `a.txt` and `sub/b.txt`. -/
theorem files_are_the_visible_files_witness :
    readable exampleTree = true ∧ distinctNames exampleTree = true ∧
    basename "." ∉ ignoredDirs ∧ matchesPath none "." = false ∧
    scan "/R" "." none exampleTree
      = .ok ⟨"/R", [⟨"a.txt", 10, ".txt"⟩, ⟨"sub/b.txt", 3, ".txt"⟩]⟩ ∧
    ∃ files, scan "/R" "." none exampleTree = .ok ⟨"/R", files⟩ ∧
      (∀ f ∈ files, ∃ cs sz, cs ≠ [] ∧ Node.At exampleTree cs (.file sz) ∧ Visible none cs ∧
        f.Path = relStr cs ∧ f.Size = sz) ∧
      (∀ cs sz, Node.At exampleTree cs (.file sz) → Visible none cs →
        ∃ f ∈ files, f.Path = relStr cs ∧ f.Size = sz) ∧
      (legalNames exampleTree = true → ∀ f ∈ files, ∀ cs x, cs ≠ [] →
        Node.At exampleTree cs x → f.Path = relStr cs → x.isDir = false) :=
  ⟨by decide, by decide, by decide, by rfl, by rfl,
   files_are_the_visible_files "/R" "." none _ (by decide) (by decide) (by decide) (by rfl)⟩

/-- C4 (as amended). A root without an ignore file and the same root with a
`.gitignore` that compiles to a matcher matching no path give the same scan
output except for the entry of the ignore file itself: either both runs fail
with the same error, or both succeed with the same `Root`, and the file list
of the first is the file list of the second without the entry whose path is
`.gitignore`. -/
theorem blank_gitignore_adds_only_its_entry (CompileIgnoreFile : Node → Option GitIgnore)
    (absRoot root : String) (es1 es2 : List (String × Node)) (sz : Int) (m : GitIgnore)
    (h : ∀ x ∈ es1 ++ es2, x.1 ≠ ".gitignore")
    (hC : CompileIgnoreFile (.file sz) = some m) (hm : ∀ s, m.MatchesPath s = false) :
    match main CompileIgnoreFile absRoot root (.dir (es1 ++ es2)) with
    | .error e =>
      main CompileIgnoreFile absRoot root (.dir (es1 ++ (".gitignore", .file sz) :: es2))
        = .error e
    | .ok p =>
      ∃ files,
        main CompileIgnoreFile absRoot root (.dir (es1 ++ (".gitignore", .file sz) :: es2))
          = .ok ⟨p.Root, files⟩ ∧
        files.filter (fun f => f.Path != ".gitignore") = p.Files := by
  have h1 : main CompileIgnoreFile absRoot root (.dir (es1 ++ es2))
      = scan absRoot root none (.dir (es1 ++ es2)) := by
    rw [main, loadGitignore_absent _ _ h]
  have h2 : main CompileIgnoreFile absRoot root (.dir (es1 ++ (".gitignore", .file sz) :: es2))
      = scan absRoot root none (.dir (es1 ++ (".gitignore", .file sz) :: es2)) := by
    rw [main, loadGitignore_present _ _ _ _ (fun x hx => h x (List.mem_append_left _ hx)), hC,
      scan_blank _ _ m hm]
  rw [h1, h2]
  exact gitignore_entry_only absRoot root es1 es2 sz h

/-- C4, witness: a root storing `b.txt`, a ten-byte `.gitignore` and `a.txt`;
with the ignore file the report has the three files, without it the two
others. -/
theorem blank_gitignore_adds_only_its_entry_witness :
    (∀ x ∈ [("b.txt", Node.file 1)] ++ [("a.txt", Node.file 2)], x.1 ≠ ".gitignore") ∧
    compileBlank (.file 10) = some blankIgnore ∧
    (∀ s, blankIgnore.MatchesPath s = false) ∧
    main compileBlank "/w" "." (.dir ([("b.txt", .file 1)] ++ [("a.txt", .file 2)]))
      = .ok ⟨"/w", [⟨"a.txt", 2, ".txt"⟩, ⟨"b.txt", 1, ".txt"⟩]⟩ ∧
    main compileBlank "/w" "."
        (.dir ([("b.txt", .file 1)] ++ (".gitignore", .file 10) :: [("a.txt", .file 2)]))
      = .ok ⟨"/w", [⟨".gitignore", 10, ".gitignore"⟩, ⟨"a.txt", 2, ".txt"⟩,
                    ⟨"b.txt", 1, ".txt"⟩]⟩ ∧
    (match main compileBlank "/w" "." (.dir ([("b.txt", .file 1)] ++ [("a.txt", .file 2)])) with
     | .error e =>
       main compileBlank "/w" "."
           (.dir ([("b.txt", .file 1)] ++ (".gitignore", .file 10) :: [("a.txt", .file 2)]))
         = .error e
     | .ok p =>
       ∃ files,
         main compileBlank "/w" "."
             (.dir ([("b.txt", .file 1)] ++ (".gitignore", .file 10) :: [("a.txt", .file 2)]))
           = .ok ⟨p.Root, files⟩ ∧
         files.filter (fun f => f.Path != ".gitignore") = p.Files) :=
  ⟨by decide, rfl, fun _ => rfl, by rfl, by rfl,
   blank_gitignore_adds_only_its_entry compileBlank "/w" "." _ _ 10 blankIgnore
     (by decide) rfl (fun _ => rfl)⟩

/-- C4, counterexample to the claim as stated: an empty root reports no file,
the same root holding only a blank `.gitignore` reports that file, so the two
outputs are not identical. -/
theorem blank_gitignore_is_listed :
    compileBlank (.file 10) = some blankIgnore ∧
    (∀ s, blankIgnore.MatchesPath s = false) ∧
    main compileBlank "/w" "." (.dir []) = .ok ⟨"/w", []⟩ ∧
    main compileBlank "/w" "." (.dir [(".gitignore", .file 10)])
      = .ok ⟨"/w", [⟨".gitignore", 10, ".gitignore"⟩]⟩ ∧
    main compileBlank "/w" "." (.dir [])
      ≠ main compileBlank "/w" "." (.dir [(".gitignore", .file 10)]) := by
  refine ⟨rfl, fun _ => rfl, by rfl, by rfl, ?_⟩
  have e1 : main compileBlank "/w" "." (.dir []) = .ok ⟨"/w", []⟩ := by rfl
  have e2 : main compileBlank "/w" "." (.dir [(".gitignore", .file 10)])
      = .ok ⟨"/w", [⟨".gitignore", 10, ".gitignore"⟩]⟩ := by rfl
  rw [e1, e2]
  intro h
  cases h

/-- C9. The order of the two exclusion checks cannot be observed: the scan that
asks the ignore matcher first and the denylist second returns exactly what the
implemented scan returns, the same report with the same entries in the same
order, or the same error. -/
theorem check_order_not_observable (absRoot root : String) (g : Option GitIgnore) (t : Node) :
    scanSwapped absRoot root g t = scan absRoot root g t := by
  have h : walkFnSwapped root g = walkFn root g := by
    funext files path info err
    cases err with
    | some e => simp [walkFnSwapped, walkFn]
    | none =>
      cases info with
      | none => simp [walkFnSwapped, walkFn]
      | some i =>
        simp only [walkFnSwapped, walkFn]
        cases i.IsDir <;> cases matchesPath g (Rel root path) <;>
          by_cases hn : i.Name ∈ ignoredDirs <;> simp [hn]
  simp only [scanSwapped, scan, h]

/-- C10 (as amended). The denylist check is applied to the root entry itself:
when the root is a directory that can be listed and the base name of the root
path as given is a denylist name, the scan succeeds with no files, whatever the
directory contains. -/
theorem denylisted_root_yields_no_files (absRoot root : String) (g : Option GitIgnore)
    (es : List (String × Node)) (h : basename root ∈ ignoredDirs) :
    scan absRoot root g (.dir es) = .ok ⟨absRoot, []⟩ := by
  have hx : excluded g (basename root) [] = true := by simp [excluded, h]
  rw [scan_closed]
  simp [readDir, failure, kept, hx]

/-- C10, witness: a root given as `proj/build/` holding a file. -/
theorem denylisted_root_yields_no_files_witness :
    basename "proj/build/" ∈ ignoredDirs ∧
    scan "/home/proj/build" "proj/build/" none (.dir [("main.o", .file 7)])
      = .ok ⟨"/home/proj/build", []⟩ :=
  ⟨by decide, denylisted_root_yields_no_files _ _ _ _ (by decide)⟩

/-- C10, counterexample to the claim as stated: a root that is a directory
named `build` whose listing fails makes the scan fail instead of succeeding
with no files. -/
theorem denylisted_unreadable_root_fails :
    Node.unreadable.isDir = true ∧ basename "build" ∈ ignoredDirs ∧
    scan "/home/build" "build" none .unreadable = .error (.readdir "build") ∧
    scan "/home/build" "build" none .unreadable ≠ .ok ⟨"/home/build", []⟩ := by
  refine ⟨rfl, by decide, rfl, ?_⟩
  intro h
  cases h

/-- C8. The scan returns an error exactly when some entry that cannot be
statted, or some directory that cannot be listed, is reached, that is, lies
below no pruned directory; the error of the walk is returned in place of the
report, so nothing collected before the failure is reported; and a root that
does not exist makes the scan fail. -/
theorem scan_fails_iff_reached_failure (absRoot root : String) (g : Option GitIgnore)
    (t : Node) :
    ((∃ e, scan absRoot root g t = .error e) ↔
      ∃ cs x, Node.At t cs x ∧ x.fails = true ∧
        ∀ q, q <+: cs → q ≠ cs → excluded g (entryName root q) q = false) ∧
    (∀ e, (Walk root (walkFn root g) t []).1 = some e → scan absRoot root g t = .error e) ∧
    scan absRoot root g .missing = .error (.lstat root) := by
  refine ⟨?_, ?_, rfl⟩
  · have hf := (failure_isSome root g).1 (readDir t) (basename root) []
    have hiff : (∃ e, scan absRoot root g t = .error e) ↔
        (failure root g (basename root) [] (readDir t)).isSome = true := by
      rw [scan_closed]
      cases failure root g (basename root) [] (readDir t) <;> simp
    rw [hiff, hf]
    constructor
    · rintro ⟨cs, x1, hat, hfl, hok⟩
      obtain ⟨x, hx, rfl⟩ := At_of_At_readDir cs t x1 hat
      rw [fails_readDir] at hfl
      refine ⟨cs, x, hx, hfl, ?_⟩
      simpa [entryName] using (reachOk_iff g cs (basename root) []).1 hok
    · rintro ⟨cs, x, hat, hfl, hok⟩
      refine ⟨cs, readDir x, At_readDir_of_At hat, by rwa [fails_readDir], ?_⟩
      rw [reachOk_iff]
      simpa [entryName] using hok
  · intro e he
    simp only [scan]
    rcases hw : Walk root (walkFn root g) t [] with ⟨r, st1⟩
    rw [hw] at he
    simp only at he
    subst he
    rfl

end Scanner
